import Mathlib

set_option maxRecDepth 8192

/-!
A verification development for `repal.py`, a reverse-engineering tool for PAL
devices.  The Python source is shallowly embedded: its pure helper functions
become Lean functions on `Nat` (Python's unbounded integers), the imperative
dependency scan becomes an explicit fold over an immutable state record, and
fallible code (functions that may raise) returns `Option`.  The memory image
`dumpdata` is modelled as a total function from EPROM addresses to data words.
-/

/-- The EPROM dump (`dumpdata` in the source): data word at each address. -/
abbrev Image := Nat → Nat

/-- First loop of `iterate_mask` in repal.py: starting from `bit = 1`
(represented here as `2 ^ i` with `i` counting the shifts), while `bit <= mask`
collect the bits that are set in `mask`, lowest first, doubling `bit` each
iteration. -/
def collectBits (i mask : Nat) : List Nat :=
  if 2 ^ i ≤ mask then
    (if mask &&& 2 ^ i ≠ 0 then [2 ^ i] else []) ++ collectBits (i + 1) mask
  else []
termination_by mask + 1 - 2 ^ i
decreasing_by
  have h1 : 1 ≤ 2 ^ i := Nat.one_le_two_pow
  omega

/-- Second loop of `iterate_mask` in repal.py: for combination number `n`, OR
together the collected bits whose index is set in `n`; `srcmask` starts at `1`
and is shifted left once per collected bit, exactly as in the source. -/
def combineBits (bits : List Nat) (n srcmask : Nat) : Nat :=
  match bits with
  | [] => 0
  | bit :: rest => (if n &&& srcmask ≠ 0 then bit else 0) ||| combineBits rest n (srcmask <<< 1)

/-- `iterate_mask` from repal.py: generates bit mask iterations for all binary
combinations of a specific input mask.  For `mask < 1` the source returns
immediately, yielding nothing at all. -/
def iterate_mask (mask : Nat) : List Nat :=
  if mask < 1 then []
  else (List.range (2 ^ (collectBits 0 mask).length)).map fun n => combineBits (collectBits 0 mask) n 1

/-- Number of set bits of a natural number (used to state the spec's
`2^popcount(M)` counting claim). -/
def popcount (n : Nat) : Nat :=
  if n = 0 then 0 else n % 2 + popcount (n / 2)
decreasing_by
  exact Nat.div_lt_self (Nat.pos_of_ne_zero (by assumption)) (by omega)

/-- Bitwise OR of a list of masks (the `bitmap` maintained by the source as it
appends to the parallel `bits` list). -/
def listOr (l : List Nat) : Nat := l.foldr (fun a b => a ||| b) 0

/-- `get_set_bits` from repal.py: the bit positions below `bitcount` that are
set in `bits`, in increasing order. -/
def get_set_bits (bitcount bits : Nat) : List Nat :=
  (List.range bitcount).filter fun bitnum => bits &&& (1 <<< bitnum) ≠ 0

/-- Loop body of `build_outputpin_minterm`: `pinidx` walks the dependency bits
and bit `pinidx` of the minterm records whether that dependency bit is set in
the address. -/
def build_outputpin_minterm_go (bits : List Nat) (epromaddr pinidx : Nat) : Nat :=
  match bits with
  | [] => 0
  | b :: rest =>
      (if epromaddr &&& b ≠ 0 then 1 <<< pinidx else 0) |||
        build_outputpin_minterm_go rest epromaddr (pinidx + 1)

/-- `build_outputpin_minterm` from repal.py (the `dependencies.bits` sequence is
passed directly). -/
def build_outputpin_minterm (dependsBits : List Nat) (epromaddr : Nat) : Nat :=
  build_outputpin_minterm_go dependsBits epromaddr 0

/-- Python's `x & ~m` on (nonnegative) unbounded integers: clear in `x` every
bit that is set in `m`.  On `Nat` this is `x ^^^ (x &&& m)`. -/
def andNot (x m : Nat) : Nat := x ^^^ (x &&& m)

/-- `check_input_combination_is_relevent` from repal.py.  `A`, `H` and `D` are
the device's `eprom_address_width`, `eprom_hiz_probe_pins` and
`eprom_data_width`; `dependsBitmap` is `outputpin.depends.bitmap`. -/
def check_input_combination_is_relevent (A H D : Nat) (img : Image)
    (dependsBitmap epromaddr : Nat) : Bool :=
  let hiz_input_mask := (2 ^ H - 1) <<< (A - H)
  let hiz_data_mask := (2 ^ (D - H) - 1) <<< H
  let inversebitmap := (2 ^ A - 1) ^^^ dependsBitmap
  (iterate_mask (inversebitmap &&& hiz_input_mask)).any fun otherepromaddrbits =>
    let epromaddr2 := epromaddr ||| otherepromaddrbits
    let hiz_data := (epromaddr2 &&& hiz_input_mask) >>> (A - H)
    let relevant_data := andNot (img epromaddr2) hiz_data_mask
    hiz_data == relevant_data

/-- The relevance predicate exactly as the claim states it: there exists a
setting `p` of the high hi-z probe bits not already in `depends` (the empty
setting `p = 0` included) whose probe word matches the masked data word. -/
def relevent_per_claim (A H D : Nat) (img : Image) (dependsBitmap epromaddr : Nat) : Prop :=
  ∃ p, p &&& (((2 ^ A - 1) ^^^ dependsBitmap) &&& ((2 ^ H - 1) <<< (A - H))) = p ∧
    ((epromaddr ||| p) &&& ((2 ^ H - 1) <<< (A - H))) >>> (A - H) =
      andNot (img (epromaddr ||| p)) ((2 ^ (D - H) - 1) <<< H)

/-- `get_output_pin_data` from repal.py.  `none` models the
`NoDriveForCombination` runtime error raised when no sub-mask of
`oe_depends.bitmap` leads to an address where the pin is driven. -/
def get_output_pin_data (img : Image) (bitmask hizprobebitmask oeDependsBitmap epromaddr : Nat) :
    Option Nat :=
  if img epromaddr &&& bitmask = img (epromaddr ^^^ hizprobebitmask) &&& bitmask then
    some (img epromaddr)
  else
    (iterate_mask oeDependsBitmap).findSome? fun otherepromaddrbits =>
      let epromaddr2 := epromaddr ||| otherepromaddrbits
      if img epromaddr2 &&& bitmask = img (epromaddr2 ^^^ hizprobebitmask) &&& bitmask then
        some (img epromaddr2)
      else none

/-- Configuration of one input pin (fields of `Pin` that the dependency scan
reads for input pins). -/
structure InPinCfg where
  name : String
  bitmask : Nat
deriving DecidableEq

/-- Configuration of one output pin (the fields of `Pin` set by
`build_outputpins_configuration`). -/
structure OutCfg where
  name : String
  number : Nat
  bitpos : Nat
  bitmask : Nat
  hizprobebitpos : Option Nat
  hizprobebitmask : Nat
deriving DecidableEq

/-- A `PinDependencies` record from repal.py. -/
structure PinDependencies where
  bitmap : Nat
  bits : List Nat
  pinnames : List String
deriving DecidableEq

/-- The mutable fields of one output `Pin` written by
`build_outputpins_dependencies`. -/
structure DepState where
  oe_pinnames : List String
  oe_bits : List Nat
  oe_bitmap : Nat
  dep_pinnames : List String
  dep_bits : List Nat
  dep_bitmap : Nat
  seenlow : Bool
  seenhigh : Bool
deriving DecidableEq

/-- A fresh `Pin()`: empty dependency sets, both seen flags clear. -/
def initDepState : DepState := ⟨[], [], 0, [], [], 0, false, false⟩

/-- The hi-z test of `build_outputpins_dependencies`: if the output pin has no
hi-z probe pin the state is never hi-z; otherwise the pin is hi-z iff toggling
the probe bit changes the observed data bit. -/
def is_hiz (img : Image) (op : OutCfg) (epromaddr : Nat) : Bool :=
  match op.hizprobebitpos with
  | none => false
  | some _ =>
      (img epromaddr &&& op.bitmask) != (img (epromaddr ^^^ op.hizprobebitmask) &&& op.bitmask)

/-- The output-enable dependency update of `build_outputpins_dependencies`:
if the hi-z states differ when the input pin is low and high, add the input
pin to `oe_depends` (idempotence by pin name is modelled by the membership
guard, as in the source). -/
def oeDependsAdd (ip : InPinCfg) (hz0 hz1 : Bool) (s : DepState) : DepState :=
  if hz0 ≠ hz1 ∧ ip.name ∉ s.oe_pinnames then
    ⟨s.oe_pinnames ++ [ip.name], s.oe_bits ++ [ip.bitmask], s.oe_bitmap ||| ip.bitmask,
      s.dep_pinnames, s.dep_bits, s.dep_bitmap, s.seenlow, s.seenhigh⟩
  else s

/-- The value dependency update of `build_outputpins_dependencies`: if neither
state is hi-z and the masked outputs differ, add the input pin to `depends`. -/
def dependsAdd (ip : InPinCfg) (hz0 hz1 : Bool) (o0 o1 : Nat) (s : DepState) : DepState :=
  if hz0 = false ∧ hz1 = false ∧ o0 ≠ o1 ∧ ip.name ∉ s.dep_pinnames then
    ⟨s.oe_pinnames, s.oe_bits, s.oe_bitmap, s.dep_pinnames ++ [ip.name],
      s.dep_bits ++ [ip.bitmask], s.dep_bitmap ||| ip.bitmask, s.seenlow, s.seenhigh⟩
  else s

/-- The `seen_low`/`seen_high` update of `build_outputpins_dependencies`: when
the pin is not hi-z, record whether its masked output `o` was low or high. -/
def seenUpdate (hz : Bool) (o : Nat) (s : DepState) : DepState :=
  if hz = false then
    (if o = 0 then
      ⟨s.oe_pinnames, s.oe_bits, s.oe_bitmap, s.dep_pinnames, s.dep_bits, s.dep_bitmap,
        true, s.seenhigh⟩
    else
      ⟨s.oe_pinnames, s.oe_bits, s.oe_bitmap, s.dep_pinnames, s.dep_bits, s.dep_bitmap,
        s.seenlow, true⟩)
  else s

/-- Body of the triple loop of `build_outputpins_dependencies`, projected onto
a single output pin `op` (the source updates the fields of each output pin
independently inside the innermost loop).  `epromaddr` and `ip` are the two
outer loop variables; the three skip tests come first, then the two dependency
updates and the two seen-flag updates, in source order. -/
def depStep (img : Image) (op : OutCfg) (ip : InPinCfg) (epromaddr : Nat) (s : DepState) :
    DepState :=
  if epromaddr &&& ip.bitmask > 0 then s
  else if epromaddr &&& op.hizprobebitmask > 0 then s
  else if (epromaddr ||| ip.bitmask) &&& op.hizprobebitmask > 0 then s
  else
    seenUpdate (is_hiz img op (epromaddr ||| ip.bitmask))
      (img (epromaddr ||| ip.bitmask) &&& op.bitmask)
      (seenUpdate (is_hiz img op epromaddr) (img epromaddr &&& op.bitmask)
        (dependsAdd ip (is_hiz img op epromaddr) (is_hiz img op (epromaddr ||| ip.bitmask))
          (img epromaddr &&& op.bitmask) (img (epromaddr ||| ip.bitmask) &&& op.bitmask)
          (oeDependsAdd ip (is_hiz img op epromaddr)
            (is_hiz img op (epromaddr ||| ip.bitmask)) s)))

/-- `build_outputpins_dependencies` from repal.py, projected onto one output
pin: fold the loop body over every EPROM address and every input pin, in the
source's loop order. -/
def depScanPin (A : Nat) (img : Image) (ips : List InPinCfg) (op : OutCfg) : DepState :=
  (List.range (2 ^ A)).foldl
    (fun s epromaddr => ips.foldl (fun t ip => depStep img op ip epromaddr t) s) initDepState

/-- The per-address classification loop of `build_outputpins_equations` for the
output equation of one pin: walk the sub-addresses generated by
`iterate_mask(depends.bitmap)` and sort each minterm into the don't-care,
negative or positive list; `none` models the `NoDriveForCombination` error
escaping from `get_output_pin_data`.  Returns `(dontcareterms, negminterms,
posminterms)` in loop order. -/
def classifyTerms (A H D : Nat) (img : Image) (opBitmask opHizMask : Nat)
    (deps : PinDependencies) (oeBitmap : Nat) :
    List Nat → Option (List Nat × List Nat × List Nat)
  | [] => some ([], [], [])
  | epromaddr :: rest =>
    match classifyTerms A H D img opBitmask opHizMask deps oeBitmap rest with
    | none => none
    | some (dc, neg, pos) =>
      if check_input_combination_is_relevent A H D img deps.bitmap epromaddr = false then
        some (build_outputpin_minterm deps.bits epromaddr :: dc, neg, pos)
      else
        match get_output_pin_data img opBitmask opHizMask oeBitmap epromaddr with
        | none => none
        | some d =>
          if d &&& opBitmask = 0 then
            some (dc, build_outputpin_minterm deps.bits epromaddr :: neg, pos)
          else
            some (dc, neg, build_outputpin_minterm deps.bits epromaddr :: pos)

/-- The per-address classification loop of `build_outputpins_equations` for the
output-enable equation of one pin.  Returns `(oenegminterms, oeposminterms)` in
loop order. -/
def classifyOeTerms (img : Image) (opBitmask opHizMask : Nat) (oeDeps : PinDependencies) :
    List Nat → List Nat × List Nat
  | [] => ([], [])
  | epromaddr :: rest =>
    let r := classifyOeTerms img opBitmask opHizMask oeDeps rest
    if img epromaddr &&& opBitmask ≠ img (epromaddr ^^^ opHizMask) &&& opBitmask then
      (build_outputpin_minterm oeDeps.bits epromaddr :: r.1, r.2)
    else
      (r.1, build_outputpin_minterm oeDeps.bits epromaddr :: r.2)

/-- The `zip`/`sorted`/`zip` dance at the top of `build_outputpins_equations`:
sort the parallel `bits`/`pinnames` sequences together, ordered by bit mask
(the bit masks are pairwise distinct, so Python's lexicographic tuple
comparison only ever looks at the mask). -/
def sortDepPairs (bits : List Nat) (pinnames : List String) : List Nat × List String :=
  ((bits.zip pinnames).mergeSort fun x y => decide (x.1 ≤ y.1)).unzip

/-- Everything the equation emitter reads about one output pin. -/
structure PinData where
  name : String
  depends : PinDependencies
  oe_depends : PinDependencies
  seenlow : Bool
  seenhigh : Bool
  dontcareterms : List Nat
  negminterms : List Nat
  posminterms : List Nat
  oenegminterms : List Nat
  oeposminterms : List Nat
deriving DecidableEq

/-- `build_outputpins_equations` from repal.py for one output pin: sort the
dependency sequences, then classify all minterms for the output equation and
the output-enable equation. -/
def buildPinTerms (A H D : Nat) (img : Image) (op : OutCfg) (s : DepState) : Option PinData :=
  let sd := sortDepPairs s.dep_bits s.dep_pinnames
  let so := sortDepPairs s.oe_bits s.oe_pinnames
  let deps : PinDependencies := ⟨s.dep_bitmap, sd.1, sd.2⟩
  let oeDeps : PinDependencies := ⟨s.oe_bitmap, so.1, so.2⟩
  let outTerms :=
    if s.dep_bitmap ≠ 0 then
      classifyTerms A H D img op.bitmask op.hizprobebitmask deps s.oe_bitmap
        (iterate_mask s.dep_bitmap)
    else some ([], [], [])
  match outTerms with
  | none => none
  | some (dc, neg, pos) =>
    let oeTerms :=
      if s.oe_bitmap ≠ 0 then
        classifyOeTerms img op.bitmask op.hizprobebitmask oeDeps (iterate_mask s.oe_bitmap)
      else ([], [])
    some ⟨op.name, deps, oeDeps, s.seenlow, s.seenhigh, dc, neg, pos, oeTerms.1, oeTerms.2⟩

/-- Result of the external boolean minimizer (`boolexprsimplifier`):
either a literal constant or the product list found in `results[0]`, each
product a `(value_bits, care_mask)` pair. -/
inductive SimpResult where
  | const (b : Bool)
  | products (l : List (Nat × Nat))
deriving DecidableEq

/-- A minimizer is a function of the pin count, the on-minterms and the
don't-care minterms; the engine treats it as a deterministic black box. -/
abbrev Simplifier := Nat → List Nat → List Nat → SimpResult

/-- `isinstance(simplified_terms, bool)` on a minimizer result. -/
def isBoolResult : SimpResult → Bool
  | .const _ => true
  | .products _ => false

/-- `len(simplified_terms[0])` on a minimizer result.  (The source would raise
a `TypeError` when asked for the length of a literal constant; that comparison
is only reachable when both results are product lists, so the value returned
for constants here is immaterial.) -/
def prodLen : SimpResult → Nat
  | .const _ => 0
  | .products l => l.length

/-- The `--polarity` / `--oepolarity` choices. -/
inductive Polarity where
  | auto | both | positive | negative
deriving DecidableEq

/-- Python tuple comparison `<=` on two `get_set_bits` key tuples
(lexicographic, a strict prefix compares smaller). -/
def keyLe : List Nat → List Nat → Bool
  | [], _ => true
  | _ :: _, [] => false
  | a :: as, b :: bs => if a < b then true else if b < a then false else keyLe as bs

/-- Symbol list of one product in `write_pin_equations`: walk the pin names,
shifting `bit` left each step, and keep `pinname` or `!pinname` for each bit
set in the product's care mask. -/
def prodSymbols : List String → Nat → Nat → Nat → List String
  | [], _, _, _ => []
  | pinname :: rest, bits, mask, bit =>
      (if mask &&& bit ≠ 0 then [if bits &&& bit ≠ 0 then pinname else "!" ++ pinname] else []) ++
        prodSymbols rest bits mask (bit <<< 1)

/-- `n` spaces (for the continuation-line indent). -/
def spacesOf (n : Nat) : String := String.mk (List.replicate n ' ')

/-- One output line per product of a sorted minimizer result, exactly as
`write_pin_equations` renders them. -/
def productLines (signedname : String) (pinnames : List String) (result : List (Nat × Nat)) :
    List String :=
  result.enum.map fun ip =>
    let line := String.intercalate " & " (prodSymbols pinnames ip.2.1 ip.2.2 1)
    let eol := if ip.1 = result.length - 1 then ";" else ""
    if ip.1 = 0 then signedname ++ " = " ++ line ++ eol
    else spacesOf signedname.length ++ " # " ++ line ++ eol

/-- `write_pin_equations` from repal.py, returning the written lines.  The
product list is sorted by its `get_set_bits` key to make the output
reproducible (`sorted` is stable, as is `mergeSort`). -/
def write_pin_equations (name : String) (pinnames : List String) (results : SimpResult)
    (polarity : String) : List String :=
  let signedname := if polarity = "positive" then name else "!" ++ name
  match results with
  | .const true => [signedname ++ " = \x27b\x271;"]
  | .const false => [signedname ++ " = \x27b\x270;"]
  | .products result =>
      productLines signedname pinnames
        (result.mergeSort fun r1 r2 =>
          keyLe (get_set_bits pinnames.length r1.2) (get_set_bits pinnames.length r2.2))

/-- `write_equations_pin_name_value` from repal.py (the truth-table output is
gated behind `--truthtable` and written to a different file; only the equations
file lines are modelled). -/
def write_equations_pin_name_value (name : String) (value : Nat) (polarity : Polarity) :
    List String :=
  if value = 0 then
    match polarity with
    | .auto | .positive => [name ++ " = \x27b\x270;"]
    | .negative => ["!" ++ name ++ " = \x27b\x271;"]
    | .both => [name ++ " = \x27b\x270;", "!" ++ name ++ " = \x27b\x271;"]
  else if value = 1 then
    match polarity with
    | .auto | .positive => [name ++ " = \x27b\x271;"]
    | .negative => ["!" ++ name ++ " = \x27b\x270;"]
    | .both => [name ++ " = \x27b\x271;", "!" ++ name ++ " = \x27b\x270;"]
  else []

/-- The body of `write_equations_pin_output_equations` for one output pin:
lines appended to the equations file (a `""` element is the blank separator
line written by `write_equations_newline`). -/
def pinOutputEqLines (simplify : Simplifier) (polarity : Polarity) (p : PinData) : List String :=
  if p.depends.bitmap = 0 then
    if p.seenhigh = true then write_equations_pin_name_value p.name 1 polarity ++ [""]
    else if p.seenlow = true then write_equations_pin_name_value p.name 0 polarity ++ [""]
    else []
  else
    let simplified_terms_pos :=
      simplify p.depends.pinnames.length p.posminterms p.dontcareterms
    let simplified_terms_neg :=
      simplify p.depends.pinnames.length p.negminterms p.dontcareterms
    if polarity = Polarity.both then
      write_pin_equations p.name p.depends.pinnames simplified_terms_pos "positive" ++
        write_pin_equations p.name p.depends.pinnames simplified_terms_neg "negative" ++ [""]
    else if polarity = Polarity.positive ∨
        (polarity = Polarity.auto ∧
          (isBoolResult simplified_terms_pos = true ∨
            prodLen simplified_terms_pos ≤ prodLen simplified_terms_neg)) then
      write_pin_equations p.name p.depends.pinnames simplified_terms_pos "positive" ++ [""]
    else
      write_pin_equations p.name p.depends.pinnames simplified_terms_neg "negative" ++ [""]

/-- The body of `write_equations_pin_output_enable_equations` for one output
pin. -/
def pinOeEqLines (simplify : Simplifier) (oepolarity : Polarity) (p : PinData) : List String :=
  if p.oe_depends.bitmap = 0 then
    if p.seenhigh = true ∨ p.seenlow = true then
      write_equations_pin_name_value (p.name ++ ".oe") 1 oepolarity ++ [""]
    else
      write_equations_pin_name_value (p.name ++ ".oe") 0 oepolarity ++ [""]
  else
    let simplified_terms_pos :=
      simplify p.oe_depends.pinnames.length p.oeposminterms []
    let simplified_terms_neg :=
      simplify p.oe_depends.pinnames.length p.oenegminterms []
    if oepolarity = Polarity.both then
      write_pin_equations (p.name ++ ".oe") p.oe_depends.pinnames simplified_terms_pos "positive" ++
        write_pin_equations (p.name ++ ".oe") p.oe_depends.pinnames simplified_terms_neg
          "negative" ++ [""]
    else if oepolarity = Polarity.positive ∨
        (oepolarity = Polarity.auto ∧
          (isBoolResult simplified_terms_pos = true ∨
            prodLen simplified_terms_pos ≤ prodLen simplified_terms_neg)) then
      write_pin_equations (p.name ++ ".oe") p.oe_depends.pinnames simplified_terms_pos
        "positive" ++ [""]
    else
      write_pin_equations (p.name ++ ".oe") p.oe_depends.pinnames simplified_terms_neg
        "negative" ++ [""]

/-- A device profile (the JSON fields read by repal.py; `pal_pin_names` keeps
the file's insertion order, as Python dicts do). -/
structure Device where
  eprom_address_width : Nat
  eprom_data_width : Nat
  eprom_hiz_probe_pins : Nat
  eprom_address_pins : List Nat
  eprom_data_pins : List Nat
  pal_pin_names : List (Nat × String)
  pal_output_pins : Nat
  pal_device_name : String

/-- Look up a pin's symbolic name in the profile. -/
def palPinName (dev : Device) (n : Nat) : String :=
  ((dev.pal_pin_names.find? fun x => x.1 == n).map fun x => x.2).getD ""

/-- `palpinnum_to_epromdatabitpos` from repal.py. -/
def palpinnum_to_epromdatabitpos (dev : Device) (palpinnum : Nat) : Option Nat :=
  dev.eprom_data_pins.findIdx? fun p => p == palpinnum

/-- `palpinnum_to_epromaddrbitpos` from repal.py. -/
def palpinnum_to_epromaddrbitpos (dev : Device) (palpinnum : Nat) : Option Nat :=
  dev.eprom_address_pins.findIdx? fun p => p == palpinnum

/-- `build_inputpins_configuration` from repal.py. -/
def build_inputpins_configuration (dev : Device) : List InPinCfg :=
  (List.range dev.eprom_address_width).map fun bitpos =>
    ⟨palPinName dev (dev.eprom_address_pins.getD bitpos 0), 1 <<< bitpos⟩

/-- `build_outputpins_configuration` from repal.py. -/
def build_outputpins_configuration (dev : Device) : List OutCfg :=
  (List.range dev.pal_output_pins).map fun bitpos =>
    let number := dev.eprom_data_pins.getD bitpos 0
    let hizpos := palpinnum_to_epromaddrbitpos dev number
    ⟨palPinName dev number, number, bitpos, 1 <<< bitpos, hizpos,
      match hizpos with
      | some j => 1 <<< j
      | none => 0⟩

/-- One line of the "Pin mappings" section (`write_equations_pin_aliases`). -/
def aliasLine (dev : Device) (states : List DepState) (number : Nat) (name : String) : String :=
  let head := "pin " ++ toString number ++ " = " ++ name ++ ";  /* "
  match palpinnum_to_epromdatabitpos dev number with
  | none => head ++ "Dedicated input */ "
  | some outputindex =>
    let s := states.getD outputindex initDepState
    if s.oe_bitmap = 0 then
      if s.dep_bitmap = 0 then
        if s.seenhigh = true then head ++ "Fixed high output */ "
        else if s.seenlow = true then head ++ "Fixed low output */ "
        else head ++ "Input */ "
      else head ++ "Combinatorial output */ "
    else
      if s.dep_bitmap = 0 then
        if s.seenhigh = true then head ++ "Fixed high output w/ output enable */ "
        else head ++ "Fixed low output w/ output enable */ "
      else head ++ "Combinatorial output w/ output enable */ "

/-- `write_equations_section_title` from repal.py. -/
def write_equations_section_title (title : String) : List String :=
  ["", "/* " ++ title ++ " */", ""]

/-- `write_equations_file_header` from repal.py; `date` is the value of
`datetime.datetime.now().strftime("%x")` at the moment of the run. -/
def write_equations_file_header (filename devicename date : String) : List String :=
  ["Name " ++ filename ++ ";", "Device " ++ devicename ++ ";", "Partno ;", "Revision ;",
    "Date " ++ date ++ ";", "Designer ;", "Company ;", "Assembly ;", "Location ;", ""]

/-- Concatenate per-pin line blocks. -/
def concatLines (ls : List (List String)) : List String :=
  ls.foldr (fun a b => a ++ b) []

/-- The whole program run of repal.py producing the equations (`.pld`) file, as
the list of its lines: header, pin-mapping section, output equations and
output-enable equations.  `none` models a fatal `NoDriveForCombination` error
(the program dies before the file is written).  `stem` is the dump file's stem
and `date` the current date at run time. -/
def repal_run (dev : Device) (img : Image) (polarity oepolarity : Polarity)
    (simplify : Simplifier) (stem date : String) : Option (List String) :=
  let ips := build_inputpins_configuration dev
  let ops := build_outputpins_configuration dev
  let states := ops.map fun op => depScanPin dev.eprom_address_width img ips op
  match (ops.zip states).mapM
      (fun x =>
        buildPinTerms dev.eprom_address_width dev.eprom_hiz_probe_pins dev.eprom_data_width
          img x.1 x.2) with
  | none => none
  | some pins =>
    some (write_equations_file_header stem dev.pal_device_name date ++
      (write_equations_section_title "Pin mappings" ++
        (dev.pal_pin_names.map fun x => aliasLine dev states x.1 x.2) ++ [""]) ++
      (write_equations_section_title "Output equations" ++
        concatLines (pins.map fun p => pinOutputEqLines simplify polarity p)) ++
      (write_equations_section_title "Output enable equations" ++
        concatLines (pins.map fun p => pinOeEqLines simplify oepolarity p)))

/-! ### Basic bit lemmas -/

theorem and_pow_ne_iff (n j : Nat) : n &&& 2 ^ j ≠ 0 ↔ n.testBit j = true := by
  rw [Nat.and_two_pow]
  cases h : n.testBit j
  · simp
  · simp [(Nat.two_pow_pos j).ne']

theorem and_eq_left_iff (x M : Nat) :
    x &&& M = x ↔ ∀ t, x.testBit t = true → M.testBit t = true := by
  constructor
  · intro h t hx
    have h2 := congrArg (fun y => y.testBit t) h
    simp only [Nat.testBit_and, hx, Bool.true_and] at h2
    exact h2
  · intro h
    apply Nat.eq_of_testBit_eq
    intro t
    rw [Nat.testBit_and]
    cases hx : x.testBit t
    · simp
    · simp [h t hx]

theorem testBit_listOr (l : List Nat) (t : Nat) :
    (listOr l).testBit t = true ↔ ∃ b ∈ l, b.testBit t = true := by
  induction l with
  | nil => simp [listOr]
  | cons b rest ih =>
    simp only [listOr, List.foldr_cons, Nat.testBit_or, Bool.or_eq_true, List.mem_cons]
    rw [show (List.foldr (fun a b => a ||| b) 0 rest) = listOr rest from rfl]
    constructor
    · rintro (h | h)
      · exact ⟨b, Or.inl rfl, h⟩
      · obtain ⟨c, hc, hct⟩ := ih.mp h
        exact ⟨c, Or.inr hc, hct⟩
    · rintro ⟨c, (rfl | hc), hct⟩
      · exact Or.inl hct
      · exact Or.inr (ih.mpr ⟨c, hc, hct⟩)

theorem getD_eq_getElem_of_lt (l : List Nat) (i : Nat) (hi : i < l.length) :
    l.getD i 0 = l[i] := by
  rw [List.getD_eq_getElem?_getD, List.getElem?_eq_getElem hi]
  rfl

theorem getD_mem_of_lt (l : List Nat) (i : Nat) (hi : i < l.length) : l.getD i 0 ∈ l := by
  rw [getD_eq_getElem_of_lt l i hi]
  exact List.getElem_mem hi

/-! ### Characterization of `combineBits` and `build_outputpin_minterm` -/

theorem combineBits_testBit (bits : List Nat) (n j t : Nat) :
    (combineBits bits n (2 ^ j)).testBit t = true ↔
      ∃ i, i < bits.length ∧ (bits.getD i 0).testBit t = true ∧ n.testBit (j + i) = true := by
  induction bits generalizing j with
  | nil => simp [combineBits]
  | cons b rest ih =>
    have hs : (2 ^ j) <<< 1 = 2 ^ (j + 1) := by
      rw [Nat.shiftLeft_eq]
      ring
    simp only [combineBits, hs, Nat.testBit_or, Bool.or_eq_true]
    rw [ih (j + 1)]
    constructor
    · rintro (h | ⟨i, hi, hb, hn⟩)
      · by_cases hc : n &&& 2 ^ j ≠ 0
        · rw [if_pos hc] at h
          exact ⟨0, by simp, by simpa using h, by simpa using (and_pow_ne_iff n j).mp hc⟩
        · rw [if_neg hc] at h
          simp at h
      · refine ⟨i + 1, by simp; omega, by simpa using hb, ?_⟩
        rw [show j + (i + 1) = j + 1 + i by omega]
        exact hn
    · rintro ⟨i, hi, hb, hn⟩
      match i with
      | 0 =>
        left
        rw [if_pos ((and_pow_ne_iff n j).mpr (by simpa using hn))]
        simpa using hb
      | i + 1 =>
        right
        refine ⟨i, by simp at hi; omega, by simpa using hb, ?_⟩
        rw [show j + 1 + i = j + (i + 1) by omega]
        exact hn

theorem minterm_go_testBit (bits : List Nat) (addr j t : Nat) :
    (build_outputpin_minterm_go bits addr j).testBit t = true ↔
      ∃ i, i < bits.length ∧ t = j + i ∧ addr &&& bits.getD i 0 ≠ 0 := by
  induction bits generalizing j with
  | nil => simp [build_outputpin_minterm_go]
  | cons b rest ih =>
    have h1 : (1 : Nat) <<< j = 2 ^ j := by rw [Nat.shiftLeft_eq, Nat.one_mul]
    simp only [build_outputpin_minterm_go, h1, Nat.testBit_or, Bool.or_eq_true]
    rw [ih (j + 1)]
    constructor
    · rintro (h | ⟨i, hi, ht, ha⟩)
      · by_cases hc : addr &&& b ≠ 0
        · rw [if_pos hc] at h
          rw [Nat.testBit_two_pow] at h
          have hjt : j = t := of_decide_eq_true h
          exact ⟨0, by simp, by omega, by simpa using hc⟩
        · rw [if_neg hc] at h
          simp at h
      · exact ⟨i + 1, by simp; omega, by omega, by simpa using ha⟩
    · rintro ⟨i, hi, ht, ha⟩
      match i with
      | 0 =>
        left
        rw [if_pos (by simpa using ha)]
        rw [Nat.testBit_two_pow]
        exact decide_eq_true (by omega)
      | i + 1 =>
        right
        exact ⟨i, by simp at hi; omega, by omega, by simpa using ha⟩

theorem minterm_testBit (bits : List Nat) (addr t : Nat) :
    (build_outputpin_minterm bits addr).testBit t = true ↔
      t < bits.length ∧ addr &&& bits.getD t 0 ≠ 0 := by
  rw [build_outputpin_minterm, minterm_go_testBit]
  constructor
  · rintro ⟨i, hi, ht, ha⟩
    have hit : i = t := by omega
    subst hit
    exact ⟨hi, ha⟩
  · rintro ⟨ht, ha⟩
    exact ⟨t, ht, by omega, ha⟩

theorem combine_one_testBit (bits : List Nat) (n t : Nat) :
    (combineBits bits n 1).testBit t = true ↔
      ∃ i, i < bits.length ∧ (bits.getD i 0).testBit t = true ∧ n.testBit i = true := by
  have h := combineBits_testBit bits n 0 t
  simpa using h

theorem minterm_lt (bits : List Nat) (addr : Nat) :
    build_outputpin_minterm bits addr < 2 ^ bits.length := by
  apply Nat.lt_pow_two_of_testBit
  intro i hi
  cases h : (build_outputpin_minterm bits addr).testBit i
  · rfl
  · exact absurd ((minterm_testBit bits addr i).mp h).1 (by omega)

theorem sorted_getD_inj (bits : List Nat) (hasc : List.Pairwise (· < ·) bits)
    (i j : Nat) (hi : i < bits.length) (hj : j < bits.length)
    (h : bits.getD i 0 = bits.getD j 0) : i = j := by
  rw [getD_eq_getElem_of_lt bits i hi, getD_eq_getElem_of_lt bits j hj] at h
  rcases Nat.lt_trichotomy i j with hlt | heq | hgt
  · exact absurd h (Nat.ne_of_lt ((List.pairwise_iff_getElem.mp hasc) i j hi hj hlt))
  · exact heq
  · exact absurd h.symm (Nat.ne_of_lt ((List.pairwise_iff_getElem.mp hasc) j i hj hi hgt))

theorem getD_pow (bits : List Nat) (hpow : ∀ b ∈ bits, ∃ e, b = 2 ^ e)
    (i : Nat) (hi : i < bits.length) : ∃ e, bits.getD i 0 = 2 ^ e :=
  hpow _ (getD_mem_of_lt bits i hi)

/-- Re-encoding the `n`-th generated sub-address gives back `n`. -/
theorem minterm_combine (bits : List Nat) (hasc : List.Pairwise (· < ·) bits)
    (hpow : ∀ b ∈ bits, ∃ e, b = 2 ^ e) (n : Nat) (hn : n < 2 ^ bits.length) :
    build_outputpin_minterm bits (combineBits bits n 1) = n := by
  apply Nat.eq_of_testBit_eq
  intro t
  cases hnt : n.testBit t with
  | true =>
    have ht : t < bits.length := by
      by_contra hge
      have hlt : n < 2 ^ t :=
        Nat.lt_of_lt_of_le hn (Nat.pow_le_pow_right (by omega) (by omega))
      rw [Nat.testBit_lt_two_pow hlt] at hnt
      cases hnt
    refine (minterm_testBit bits (combineBits bits n 1) t).mpr ⟨ht, ?_⟩
    obtain ⟨e, he⟩ := getD_pow bits hpow t ht
    rw [he, and_pow_ne_iff]
    refine (combine_one_testBit bits n e).mpr ⟨t, ht, ?_, ?_⟩
    · rw [he]
      exact Nat.testBit_two_pow_self
    · exact hnt
  | false =>
    cases hc : (build_outputpin_minterm bits (combineBits bits n 1)).testBit t
    · rfl
    · exfalso
      obtain ⟨ht, ha⟩ := (minterm_testBit bits (combineBits bits n 1) t).mp hc
      obtain ⟨e, he⟩ := getD_pow bits hpow t ht
      rw [he, and_pow_ne_iff] at ha
      obtain ⟨i, hi, hbi, hni⟩ := (combine_one_testBit bits n e).mp ha
      obtain ⟨f, hf⟩ := getD_pow bits hpow i hi
      rw [hf, Nat.testBit_two_pow] at hbi
      have hfe : f = e := of_decide_eq_true hbi
      have hit : i = t := by
        apply sorted_getD_inj bits hasc i t hi ht
        rw [hf, he, hfe]
      rw [hit, hnt] at hni
      cases hni

/-- Every generated combination is a sub-mask of the OR of the bits. -/
theorem combineBits_and_listOr (bits : List Nat) (n : Nat) :
    combineBits bits n 1 &&& listOr bits = combineBits bits n 1 := by
  rw [and_eq_left_iff]
  intro t hb
  obtain ⟨i, hi, hbi, _⟩ := (combine_one_testBit bits n t).mp hb
  exact (testBit_listOr bits t).mpr ⟨bits.getD i 0, getD_mem_of_lt bits i hi, hbi⟩

/-- Expanding the encoding of a sub-mask gives back the sub-mask. -/
theorem combine_minterm (bits : List Nat)
    (hpow : ∀ b ∈ bits, ∃ e, b = 2 ^ e) (s : Nat)
    (hs : s &&& listOr bits = s) :
    combineBits bits (build_outputpin_minterm bits s) 1 = s := by
  apply Nat.eq_of_testBit_eq
  intro t
  cases hst : s.testBit t with
  | true =>
    have hM : (listOr bits).testBit t = true := (and_eq_left_iff s (listOr bits)).mp hs t hst
    obtain ⟨b, hb, hbt⟩ := (testBit_listOr bits t).mp hM
    obtain ⟨e, rfl⟩ := hpow b hb
    rw [Nat.testBit_two_pow] at hbt
    have het : e = t := of_decide_eq_true hbt
    subst het
    obtain ⟨i, hi, hbi⟩ := List.mem_iff_getElem.mp hb
    have hgd : bits.getD i 0 = 2 ^ e := by rw [getD_eq_getElem_of_lt bits i hi, hbi]
    refine (combine_one_testBit bits (build_outputpin_minterm bits s) e).mpr ⟨i, hi, ?_, ?_⟩
    · rw [hgd]
      exact Nat.testBit_two_pow_self
    · refine (minterm_testBit bits s i).mpr ⟨hi, ?_⟩
      rw [hgd, and_pow_ne_iff]
      exact hst
  | false =>
    cases hc : (combineBits bits (build_outputpin_minterm bits s) 1).testBit t
    · rfl
    · exfalso
      obtain ⟨i, hi, hbi, hmi⟩ :=
        (combine_one_testBit bits (build_outputpin_minterm bits s) t).mp hc
      obtain ⟨e, he⟩ := getD_pow bits hpow i hi
      rw [he, Nat.testBit_two_pow] at hbi
      have het : e = t := of_decide_eq_true hbi
      obtain ⟨_, ha⟩ := (minterm_testBit bits s i).mp hmi
      rw [he, het, and_pow_ne_iff, hst] at ha
      cases ha

/-! ### Properties of `collectBits` -/

/-- Induction along the recursion of `collectBits`. -/
theorem collectBits_ind (M : Nat) (P : Nat → Prop)
    (base : ∀ i, M < 2 ^ i → P i)
    (step : ∀ i, 2 ^ i ≤ M → P (i + 1) → P i) : ∀ i, P i := by
  have H : ∀ k i, M + 1 - 2 ^ i ≤ k → P i := by
    intro k
    induction k with
    | zero =>
      intro i h
      have h1 : (1 : Nat) ≤ 2 ^ i := Nat.one_le_two_pow
      exact base i (by omega)
    | succ k ih =>
      intro i h
      by_cases hle : 2 ^ i ≤ M
      · refine step i hle (ih (i + 1) ?_)
        have h1 : (1 : Nat) ≤ 2 ^ i := Nat.one_le_two_pow
        have h2 : 2 ^ (i + 1) = 2 ^ i * 2 := Nat.pow_succ ..
        omega
      · exact base i (by omega)
  intro i
  have h1 : (1 : Nat) ≤ 2 ^ i := Nat.one_le_two_pow
  exact H (M + 1) i (by omega)

theorem mem_collectBits (M : Nat) :
    ∀ i b, b ∈ collectBits i M ↔ ∃ j, i ≤ j ∧ b = 2 ^ j ∧ M.testBit j = true := by
  refine collectBits_ind M (fun i => ∀ b, _) ?_ ?_
  · intro i hMi b
    rw [collectBits, if_neg (by omega)]
    simp only [List.not_mem_nil, false_iff]
    rintro ⟨j, hij, rfl, htb⟩
    have hge := Nat.testBit_implies_ge htb
    have hmono : (2 : Nat) ^ i ≤ 2 ^ j := Nat.pow_le_pow_right (by omega) hij
    omega
  · intro i hle ih b
    rw [collectBits, if_pos hle]
    simp only [List.mem_append]
    constructor
    · rintro (h | h)
      · by_cases hc : M &&& 2 ^ i ≠ 0
        · rw [if_pos hc] at h
          simp only [List.mem_singleton] at h
          exact ⟨i, Nat.le_refl i, h, (and_pow_ne_iff M i).mp hc⟩
        · rw [if_neg hc] at h
          simp at h
      · obtain ⟨j, hij, rfl, htb⟩ := (ih b).mp h
        exact ⟨j, by omega, rfl, htb⟩
    · rintro ⟨j, hij, rfl, htb⟩
      by_cases hji : j = i
      · subst hji
        left
        rw [if_pos ((and_pow_ne_iff M j).mpr htb)]
        simp
      · right
        exact (ih _).mpr ⟨j, by omega, rfl, htb⟩

theorem collectBits_pow (M i : Nat) : ∀ b ∈ collectBits i M, ∃ e, b = 2 ^ e := by
  intro b hb
  obtain ⟨j, _, rfl, _⟩ := (mem_collectBits M i b).mp hb
  exact ⟨j, rfl⟩

theorem collectBits_pairwise (M : Nat) :
    ∀ i, List.Pairwise (· < ·) (collectBits i M) := by
  refine collectBits_ind M _ ?_ ?_
  · intro i hMi
    rw [collectBits, if_neg (by omega)]
    exact List.Pairwise.nil
  · intro i hle ih
    rw [collectBits, if_pos hle]
    have hbig : ∀ b ∈ collectBits (i + 1) M, 2 ^ i < b := by
      intro b hb
      obtain ⟨j, hij, rfl, _⟩ := (mem_collectBits M (i + 1) b).mp hb
      exact Nat.pow_lt_pow_right (by omega) (by omega)
    by_cases hc : M &&& 2 ^ i ≠ 0
    · rw [if_pos hc]
      simp only [List.singleton_append, List.pairwise_cons]
      exact ⟨hbig, ih⟩
    · rw [if_neg hc]
      simpa using ih

theorem listOr_collectBits (M : Nat) : listOr (collectBits 0 M) = M := by
  apply Nat.eq_of_testBit_eq
  intro t
  cases h : M.testBit t with
  | true =>
    exact (testBit_listOr _ t).mpr
      ⟨2 ^ t, (mem_collectBits M 0 (2 ^ t)).mpr ⟨t, by omega, rfl, h⟩, Nat.testBit_two_pow_self⟩
  | false =>
    cases hc : (listOr (collectBits 0 M)).testBit t
    · rfl
    · exfalso
      obtain ⟨b, hb, hbt⟩ := (testBit_listOr _ t).mp hc
      obtain ⟨j, _, rfl, htj⟩ := (mem_collectBits M 0 b).mp hb
      rw [Nat.testBit_two_pow] at hbt
      have : j = t := of_decide_eq_true hbt
      subst this
      rw [h] at htj
      cases htj

theorem collectBits_length (M : Nat) :
    ∀ i, (collectBits i M).length = popcount (M >>> i) := by
  refine collectBits_ind M _ ?_ ?_
  · intro i hMi
    rw [collectBits, if_neg (by omega)]
    rw [Nat.shiftRight_eq_div_pow, Nat.div_eq_of_lt hMi]
    rw [popcount]
    simp
  · intro i hle ih
    rw [collectBits, if_pos hle]
    have hne : M >>> i ≠ 0 := by
      rw [Nat.shiftRight_eq_div_pow]
      have h1 : 1 ≤ M / 2 ^ i := (Nat.one_le_div_iff (Nat.two_pow_pos i)).mpr hle
      omega
    have hdiv : M >>> i / 2 = M >>> (i + 1) := by
      rw [Nat.shiftRight_eq_div_pow, Nat.shiftRight_eq_div_pow, Nat.div_div_eq_div_mul,
        Nat.pow_succ]
    have hmod : M >>> i % 2 = if M.testBit i then 1 else 0 := by
      have htb : M.testBit i = decide (M / 2 ^ i % 2 = 1) := Nat.testBit_to_div_mod
      rw [Nat.shiftRight_eq_div_pow]
      rcases Nat.mod_two_eq_zero_or_one (M / 2 ^ i) with h0 | h1
      · rw [h0]
        rw [show M.testBit i = false by rw [htb]; simp [h0]]
        simp
      · rw [h1]
        rw [show M.testBit i = true by rw [htb]; simp [h1]]
        simp
    rw [popcount.eq_def, if_neg hne, hdiv, hmod, List.length_append, ih]
    by_cases hc : M &&& 2 ^ i ≠ 0
    · rw [if_pos hc]
      rw [show M.testBit i = true from (and_pow_ne_iff M i).mp hc]
      simp [Nat.add_comm]
    · rw [if_neg hc]
      have : M.testBit i = false := by
        cases htb : M.testBit i
        · rfl
        · exact absurd ((and_pow_ne_iff M i).mpr htb) hc
      rw [this]
      simp

/-! ### Properties of `iterate_mask` -/

theorem iterate_mask_length (M : Nat) (hM : 1 ≤ M) :
    (iterate_mask M).length = 2 ^ popcount M := by
  rw [iterate_mask, if_neg (by omega)]
  rw [List.length_map, List.length_range]
  congr 1
  have h := collectBits_length M 0
  simpa using h

theorem iterate_mask_getD (M n : Nat) (hM : 1 ≤ M) (hn : n < 2 ^ popcount M) :
    (iterate_mask M).getD n 0 = combineBits (collectBits 0 M) n 1 := by
  rw [iterate_mask, if_neg (by omega)]
  have hlen : (collectBits 0 M).length = popcount M := by
    have h := collectBits_length M 0
    simpa using h
  rw [List.getD_eq_getElem?_getD, List.getElem?_map, List.getElem?_range (by rw [hlen]; exact hn)]
  rfl

theorem mem_iterate_mask (M x : Nat) : x ∈ iterate_mask M ↔ 1 ≤ M ∧ x &&& M = x := by
  by_cases hM : M < 1
  · rw [iterate_mask, if_pos hM]
    simp only [List.not_mem_nil, false_iff]
    omega
  · rw [iterate_mask, if_neg hM]
    simp only [List.mem_map, List.mem_range]
    constructor
    · rintro ⟨n, hn, rfl⟩
      refine ⟨by omega, ?_⟩
      have h := combineBits_and_listOr (collectBits 0 M) n
      rwa [listOr_collectBits M] at h
    · rintro ⟨h1, hsub⟩
      refine ⟨build_outputpin_minterm (collectBits 0 M) x, minterm_lt .., ?_⟩
      apply combine_minterm
      · exact collectBits_pow M 0
      · rwa [listOr_collectBits]

/-- A strictly ascending list of powers of two is exactly what `iterate_mask`
collects from its OR. -/
theorem eq_collectBits_of_sorted_pow (bits : List Nat)
    (hasc : List.Pairwise (· < ·) bits)
    (hpow : ∀ b ∈ bits, ∃ e, b = 2 ^ e) :
    bits = collectBits 0 (listOr bits) := by
  haveI hanti : IsAntisymm Nat (· < ·) := ⟨fun a b h1 h2 => absurd h1 (Nat.lt_asymm h2)⟩
  haveI hirr : IsIrrefl Nat (· < ·) := ⟨fun a => Nat.lt_irrefl a⟩
  apply List.eq_of_perm_of_sorted _ hasc (collectBits_pairwise (listOr bits) 0)
  rw [List.perm_ext_iff_of_nodup hasc.nodup ((collectBits_pairwise (listOr bits) 0).nodup)]
  intro b
  constructor
  · intro hb
    obtain ⟨e, rfl⟩ := hpow b hb
    exact (mem_collectBits (listOr bits) 0 _).mpr
      ⟨e, by omega, rfl, (testBit_listOr bits e).mpr ⟨2 ^ e, hb, Nat.testBit_two_pow_self⟩⟩
  · intro hb
    obtain ⟨j, _, rfl, htb⟩ := (mem_collectBits (listOr bits) 0 _).mp hb
    obtain ⟨c, hc, hct⟩ := (testBit_listOr bits j).mp htb
    obtain ⟨e, rfl⟩ := hpow c hc
    rw [Nat.testBit_two_pow] at hct
    have hej : e = j := of_decide_eq_true hct
    subst hej
    exact hc

theorem popcount_listOr (bits : List Nat) (hasc : List.Pairwise (· < ·) bits)
    (hpow : ∀ b ∈ bits, ∃ e, b = 2 ^ e) : popcount (listOr bits) = bits.length := by
  have h := collectBits_length (listOr bits) 0
  rw [← eq_collectBits_of_sorted_pow bits hasc hpow] at h
  simpa using h.symm

/-- C5 counterexample: for `M = 0` the sub-mask iteration yields nothing at
all, so `0` is not generated and the count is not `2 ^ popcount 0 = 1`;
the claim asserts both for every bitmap including `M = 0`. -/
theorem claim_C5_counterexample :
    iterate_mask 0 = [] ∧ (0 : Nat) ∉ iterate_mask 0 ∧
      (iterate_mask 0).length ≠ 2 ^ popcount 0 := by
  refine ⟨rfl, ?_, ?_⟩
  · rw [show iterate_mask 0 = [] from rfl]
    exact List.not_mem_nil 0
  · rw [show iterate_mask 0 = [] from rfl, popcount]
    simp

/-- C5 (amended): for every bitmap `M ≥ 1` the sub-mask iteration generates
exactly the integers whose 1-bits are a subset of the 1-bits of `M`, producing
`2 ^ popcount M` values whose `k`-bit encodings come in natural order
`0 .. 2 ^ popcount M - 1` (in particular `0` is generated first); for `M = 0`
the iteration generates nothing. -/
theorem claim_C5 (M : Nat) (hM : 1 ≤ M) :
    (iterate_mask M).length = 2 ^ popcount M ∧
      (∀ x, x ∈ iterate_mask M ↔ x &&& M = x) ∧
      (∀ n, n < 2 ^ popcount M →
        build_outputpin_minterm (collectBits 0 M) ((iterate_mask M).getD n 0) = n) := by
  refine ⟨iterate_mask_length M hM, ?_, ?_⟩
  · intro x
    rw [mem_iterate_mask]
    exact ⟨fun h => h.2, fun h => ⟨hM, h⟩⟩
  · intro n hn
    rw [iterate_mask_getD M n hM hn]
    apply minterm_combine _ (collectBits_pairwise M 0) (collectBits_pow M 0)
    have hlen : (collectBits 0 M).length = popcount M := by
      have h := collectBits_length M 0
      simpa using h
    rw [hlen]
    exact hn

/-- Witness for C5 at the concrete bitmap `M = 5`. -/
theorem claim_C5_witness :
    1 ≤ 5 ∧
      ((iterate_mask 5).length = 2 ^ popcount 5 ∧
        (∀ x, x ∈ iterate_mask 5 ↔ x &&& 5 = x) ∧
        (∀ n, n < 2 ^ popcount 5 →
          build_outputpin_minterm (collectBits 0 5) ((iterate_mask 5).getD n 0) = n)) :=
  ⟨by omega, claim_C5 5 (by omega)⟩

/-- C10: for a dependency set whose `bits` sequence is strictly ascending (bit
masks, i.e. powers of two) with bitmap `M`, encoding the `n`-th sub-address
generated by iterating `M` back into a minterm yields exactly `n`. -/
theorem claim_C10 (bits : List Nat) (hasc : List.Pairwise (· < ·) bits)
    (hpow : ∀ b ∈ bits, ∃ e, b = 2 ^ e) (M : Nat) (hM : M = listOr bits)
    (n : Nat) (hn : n < 2 ^ popcount M) :
    build_outputpin_minterm bits ((iterate_mask M).getD n 0) = n := by
  subst hM
  have hlen : popcount (listOr bits) = bits.length := popcount_listOr bits hasc hpow
  by_cases h0 : listOr bits = 0
  · have hnil : bits = [] := by
      cases bits with
      | nil => rfl
      | cons b rest =>
        exfalso
        obtain ⟨e, rfl⟩ := hpow b (List.mem_cons_self b rest)
        have hb : (listOr (2 ^ e :: rest)).testBit e = true :=
          (testBit_listOr _ e).mpr ⟨2 ^ e, List.mem_cons_self _ rest, Nat.testBit_two_pow_self⟩
        rw [h0] at hb
        simp at hb
    subst hnil
    have hn0 : n = 0 := by
      rw [h0, show popcount 0 = 0 by rw [popcount]; simp] at hn
      omega
    subst hn0
    rw [h0]
    rw [show iterate_mask 0 = [] from rfl]
    rfl
  · rw [iterate_mask_getD _ n (by omega) hn]
    rw [← eq_collectBits_of_sorted_pow bits hasc hpow]
    exact minterm_combine bits hasc hpow n (by rw [← hlen]; exact hn)

/-- Witness for C10 at `bits = [1, 2]`, `M = 3`, `n = 2`. -/
theorem claim_C10_witness :
    List.Pairwise (· < ·) [1, 2] ∧ (∀ b ∈ [1, 2], ∃ e, b = 2 ^ e) ∧
      (3 : Nat) = listOr [1, 2] ∧ 2 < 2 ^ popcount 3 ∧
      build_outputpin_minterm [1, 2] ((iterate_mask 3).getD 2 0) = 2 := by
  have hpow : ∀ b ∈ [1, 2], ∃ e, b = 2 ^ e := by
    intro b hb
    fin_cases hb
    · exact ⟨0, rfl⟩
    · exact ⟨1, rfl⟩
  have hpc : popcount 3 = 2 := by simp [popcount]
  refine ⟨by decide, hpow, by decide, by rw [hpc]; omega, ?_⟩
  exact claim_C10 [1, 2] (by decide) hpow 3 (by decide) 2 (by rw [hpc]; omega)

/-- Concrete evaluation: the bits of mask `1`. -/
theorem collectBits_one : collectBits 0 1 = [1] := by
  rw [collectBits]
  norm_num
  rw [collectBits]
  norm_num

/-- Concrete evaluation: iterating mask `1`. -/
theorem iterate_mask_one : iterate_mask 1 = [0, 1] := by
  rw [iterate_mask, if_neg (by omega), collectBits_one]
  rw [show (2 : Nat) ^ ([1] : List Nat).length = 2 from rfl]
  rw [show List.range 2 = [0, 1] from rfl]
  simp [combineBits]

/-- C1 counterexample: with `A = H = D = 1`, an all-zero image, and
`depends.bitmap = 1`, the iteration mask `~depends & hiz_input_mask` is `0`, so
the source classifies sub-address `0` as don't-care even though the empty probe
setting `p = 0` matches (`probe_value = data_value = 0`), which the claim says
makes the combination relevant. -/
theorem claim_C1_counterexample :
    check_input_combination_is_relevent 1 1 1 (fun _ => 0) 1 0 = false ∧
      relevent_per_claim 1 1 1 (fun _ => 0) 1 0 := by
  constructor
  · rfl
  · exact ⟨0, by decide, by decide⟩

/-- C1 (amended): the don't-care relevance test classifies a combination as
relevant iff the iteration mask `~op.depends.bitmap & hiz_input_mask` is
non-zero and some sub-mask `p` of it (including `p = 0`) satisfies
`(addr|p & hiz_input_mask) >> (A-H) = image[addr|p] & ~hiz_data_mask`; when
that mask is zero the combination is always classified don't-care. -/
theorem claim_C1 (A H D : Nat) (img : Image) (dependsBitmap epromaddr : Nat) :
    check_input_combination_is_relevent A H D img dependsBitmap epromaddr = true ↔
      ((((2 ^ A - 1) ^^^ dependsBitmap) &&& ((2 ^ H - 1) <<< (A - H))) ≠ 0 ∧
        relevent_per_claim A H D img dependsBitmap epromaddr) := by
  simp only [check_input_combination_is_relevent, List.any_eq_true, beq_iff_eq,
    relevent_per_claim]
  constructor
  · rintro ⟨p, hp, htest⟩
    obtain ⟨hM, hsub⟩ := (mem_iterate_mask _ p).mp hp
    exact ⟨by omega, p, hsub, htest⟩
  · rintro ⟨hM, p, hsub, htest⟩
    exact ⟨p, (mem_iterate_mask _ p).mpr ⟨by omega, hsub⟩, htest⟩

/-- C3: for a relevant sub-address, the effective-output-value lookup returns
`image[addr]` when the pin is actively driven there; any value it returns comes
from a driven address `addr | s` with `s` a sub-mask of `oe_depends.bitmap`;
and it fails with `NoDriveForCombination` (modelled as `none`) iff no such
driven address exists. -/
theorem claim_C3 (A H D : Nat) (img : Image) (dependsBitmap : Nat)
    (bitmask hizprobebitmask oeDependsBitmap epromaddr : Nat)
    (_hrel : check_input_combination_is_relevent A H D img dependsBitmap epromaddr = true) :
    (img epromaddr &&& bitmask = img (epromaddr ^^^ hizprobebitmask) &&& bitmask →
      get_output_pin_data img bitmask hizprobebitmask oeDependsBitmap epromaddr =
        some (img epromaddr)) ∧
    (∀ v, get_output_pin_data img bitmask hizprobebitmask oeDependsBitmap epromaddr = some v →
      ∃ s, s &&& oeDependsBitmap = s ∧
        img (epromaddr ||| s) &&& bitmask =
          img ((epromaddr ||| s) ^^^ hizprobebitmask) &&& bitmask ∧
        v = img (epromaddr ||| s)) ∧
    (get_output_pin_data img bitmask hizprobebitmask oeDependsBitmap epromaddr = none ↔
      ¬∃ s, s &&& oeDependsBitmap = s ∧
        img (epromaddr ||| s) &&& bitmask =
          img ((epromaddr ||| s) ^^^ hizprobebitmask) &&& bitmask) := by
  by_cases hdrv : img epromaddr &&& bitmask = img (epromaddr ^^^ hizprobebitmask) &&& bitmask
  · refine ⟨fun _ => by rw [get_output_pin_data, if_pos hdrv], ?_, ?_⟩
    · intro v hv
      rw [get_output_pin_data, if_pos hdrv] at hv
      refine ⟨0, by simp, by simpa using hdrv, ?_⟩
      simpa using (Option.some_inj.mp hv).symm
    · rw [get_output_pin_data, if_pos hdrv]
      constructor
      · intro h
        cases h
      · intro h
        exact absurd ⟨0, by simp, by simpa using hdrv⟩ h
  · rw [get_output_pin_data, if_neg hdrv]
    refine ⟨fun h => absurd h hdrv, ?_, ?_⟩
    · intro v hv
      obtain ⟨a, ha, hfa⟩ := List.exists_of_findSome?_eq_some hv
      obtain ⟨_, hsub⟩ := (mem_iterate_mask _ a).mp ha
      by_cases hda : img (epromaddr ||| a) &&& bitmask =
          img ((epromaddr ||| a) ^^^ hizprobebitmask) &&& bitmask
      · rw [if_pos hda] at hfa
        exact ⟨a, hsub, hda, (Option.some_inj.mp hfa).symm⟩
      · rw [if_neg hda] at hfa
        cases hfa
    · rw [List.findSome?_eq_none_iff]
      constructor
      · rintro h ⟨s, hsub, hdvn⟩
        by_cases h0 : oeDependsBitmap = 0
        · have hs0 : s = 0 := by
            rw [h0] at hsub
            simpa using hsub.symm
          rw [hs0] at hdvn
          simp only [Nat.or_zero] at hdvn
          exact hdrv hdvn
        · have hmem := (mem_iterate_mask oeDependsBitmap s).mpr ⟨by omega, hsub⟩
          have hfs := h s hmem
          rw [if_pos hdvn] at hfs
          cases hfs
      · intro hno x hx
        by_cases hdx : img (epromaddr ||| x) &&& bitmask =
            img ((epromaddr ||| x) ^^^ hizprobebitmask) &&& bitmask
        · exact absurd ⟨x, ((mem_iterate_mask _ x).mp hx).2, hdx⟩ hno
        · rw [if_neg hdx]

/-- Witness for C3: a driven pin at a relevant address (one-input device, all
zero image, the probe on address bit 0). -/
theorem claim_C3_witness :
    check_input_combination_is_relevent 1 1 1 (fun _ => 0) 0 0 = true ∧
      (((fun _ => 0) : Image) 0 &&& 1 = ((fun _ => 0) : Image) (0 ^^^ 1) &&& 1 →
        get_output_pin_data (fun _ => 0) 1 1 0 0 = some (((fun _ => 0) : Image) 0)) ∧
      (∀ v, get_output_pin_data (fun _ => 0) 1 1 0 0 = some v →
        ∃ s, s &&& 0 = s ∧
          ((fun _ => 0) : Image) (0 ||| s) &&& 1 =
            ((fun _ => 0) : Image) ((0 ||| s) ^^^ 1) &&& 1 ∧
          v = ((fun _ => 0) : Image) (0 ||| s)) ∧
      (get_output_pin_data (fun _ => 0) 1 1 0 0 = none ↔
        ¬∃ s, s &&& 0 = s ∧
          ((fun _ => 0) : Image) (0 ||| s) &&& 1 =
            ((fun _ => 0) : Image) ((0 ||| s) ^^^ 1) &&& 1) := by
  have hrel : check_input_combination_is_relevent 1 1 1 (fun _ => 0) 0 0 = true := by
    have hm : (((2 : Nat) ^ 1 - 1) ^^^ 0) &&& (((2 : Nat) ^ 1 - 1) <<< (1 - 1)) = 1 := by decide
    rw [check_input_combination_is_relevent]
    rw [hm, iterate_mask_one]
    decide
  exact ⟨hrel, claim_C3 1 1 1 (fun _ => 0) 0 1 1 0 0 hrel⟩

/-- What ends up in each minterm bucket of the classification loop, given that
the loop completed without a `NoDriveForCombination` error. -/
theorem classifyTerms_spec (A H D : Nat) (img : Image) (opBitmask opHizMask : Nat)
    (deps : PinDependencies) (oeBitmap : Nat) (L : List Nat)
    (dc neg pos : List Nat)
    (h : classifyTerms A H D img opBitmask opHizMask deps oeBitmap L = some (dc, neg, pos)) :
    (∀ m, m ∈ dc ↔ ∃ a ∈ L, build_outputpin_minterm deps.bits a = m ∧
        check_input_combination_is_relevent A H D img deps.bitmap a = false) ∧
    (∀ m, m ∈ neg ↔ ∃ a ∈ L, build_outputpin_minterm deps.bits a = m ∧
        check_input_combination_is_relevent A H D img deps.bitmap a = true ∧
        ∃ d, get_output_pin_data img opBitmask opHizMask oeBitmap a = some d ∧
          d &&& opBitmask = 0) ∧
    (∀ m, m ∈ pos ↔ ∃ a ∈ L, build_outputpin_minterm deps.bits a = m ∧
        check_input_combination_is_relevent A H D img deps.bitmap a = true ∧
        ∃ d, get_output_pin_data img opBitmask opHizMask oeBitmap a = some d ∧
          d &&& opBitmask ≠ 0) ∧
    (∀ a ∈ L, check_input_combination_is_relevent A H D img deps.bitmap a = true →
        ∃ d, get_output_pin_data img opBitmask opHizMask oeBitmap a = some d) := by
  induction L generalizing dc neg pos with
  | nil =>
    rw [classifyTerms] at h
    simp only [Option.some.injEq, Prod.mk.injEq] at h
    obtain ⟨h1, h2, h3⟩ := h
    subst h1
    subst h2
    subst h3
    simp
  | cons a rest ih =>
    rw [classifyTerms] at h
    cases hr : classifyTerms A H D img opBitmask opHizMask deps oeBitmap rest with
    | none =>
      rw [hr] at h
      cases h
    | some t =>
      obtain ⟨dct, negt, post⟩ := t
      rw [hr] at h
      dsimp only at h
      obtain ⟨hdc, hneg, hpos, hcov⟩ := ih dct negt post hr
      by_cases hrel : check_input_combination_is_relevent A H D img deps.bitmap a = false
      · rw [if_pos hrel] at h
        simp only [Option.some.injEq, Prod.mk.injEq] at h
        obtain ⟨h1, h2, h3⟩ := h
        subst h1
        subst h2
        subst h3
        refine ⟨?_, ?_, ?_, ?_⟩
        · intro m
          constructor
          · intro hm
            rcases List.mem_cons.mp hm with rfl | hm'
            · exact ⟨a, List.mem_cons_self a rest, rfl, hrel⟩
            · obtain ⟨b, hb, hmb, hb2⟩ := (hdc m).mp hm'
              exact ⟨b, List.mem_cons_of_mem a hb, hmb, hb2⟩
          · rintro ⟨b, hb, hmb, hb2⟩
            rcases List.mem_cons.mp hb with rfl | hb'
            · exact List.mem_cons.mpr (Or.inl hmb.symm)
            · exact List.mem_cons.mpr (Or.inr ((hdc m).mpr ⟨b, hb', hmb, hb2⟩))
        · intro m
          rw [hneg m]
          constructor
          · rintro ⟨b, hb, hmb, hb2⟩
            exact ⟨b, List.mem_cons_of_mem a hb, hmb, hb2⟩
          · rintro ⟨b, hb, hmb, hb2, hb3⟩
            rcases List.mem_cons.mp hb with rfl | hb'
            · rw [hrel] at hb2
              cases hb2
            · exact ⟨b, hb', hmb, hb2, hb3⟩
        · intro m
          rw [hpos m]
          constructor
          · rintro ⟨b, hb, hmb, hb2⟩
            exact ⟨b, List.mem_cons_of_mem a hb, hmb, hb2⟩
          · rintro ⟨b, hb, hmb, hb2, hb3⟩
            rcases List.mem_cons.mp hb with rfl | hb'
            · rw [hrel] at hb2
              cases hb2
            · exact ⟨b, hb', hmb, hb2, hb3⟩
        · intro b hb hb2
          rcases List.mem_cons.mp hb with rfl | hb'
          · rw [hrel] at hb2
            cases hb2
          · exact hcov b hb' hb2
      · rw [if_neg hrel] at h
        have hrelT : check_input_combination_is_relevent A H D img deps.bitmap a = true := by
          cases hc : check_input_combination_is_relevent A H D img deps.bitmap a
          · exact absurd hc hrel
          · rfl
        cases hd : get_output_pin_data img opBitmask opHizMask oeBitmap a with
        | none =>
          rw [hd] at h
          cases h
        | some d =>
          rw [hd] at h
          dsimp only at h
          by_cases hd0 : d &&& opBitmask = 0
          · rw [if_pos hd0] at h
            simp only [Option.some.injEq, Prod.mk.injEq] at h
            obtain ⟨h1, h2, h3⟩ := h
            subst h1
            subst h2
            subst h3
            refine ⟨?_, ?_, ?_, ?_⟩
            · intro m
              rw [hdc m]
              constructor
              · rintro ⟨b, hb, hmb, hb2⟩
                exact ⟨b, List.mem_cons_of_mem a hb, hmb, hb2⟩
              · rintro ⟨b, hb, hmb, hb2⟩
                rcases List.mem_cons.mp hb with rfl | hb'
                · rw [hrelT] at hb2
                  cases hb2
                · exact ⟨b, hb', hmb, hb2⟩
            · intro m
              constructor
              · intro hm
                rcases List.mem_cons.mp hm with rfl | hm'
                · exact ⟨a, List.mem_cons_self a rest, rfl, hrelT, d, hd, hd0⟩
                · obtain ⟨b, hb, hmb, hb2, hb3⟩ := (hneg m).mp hm'
                  exact ⟨b, List.mem_cons_of_mem a hb, hmb, hb2, hb3⟩
              · rintro ⟨b, hb, hmb, hb2, e, he, he0⟩
                rcases List.mem_cons.mp hb with rfl | hb'
                · exact List.mem_cons.mpr (Or.inl hmb.symm)
                · exact List.mem_cons.mpr (Or.inr ((hneg m).mpr ⟨b, hb', hmb, hb2, e, he, he0⟩))
            · intro m
              rw [hpos m]
              constructor
              · rintro ⟨b, hb, hmb, hb2⟩
                exact ⟨b, List.mem_cons_of_mem a hb, hmb, hb2⟩
              · rintro ⟨b, hb, hmb, hb2, e, he, he0⟩
                rcases List.mem_cons.mp hb with rfl | hb'
                · rw [hd] at he
                  have hde : d = e := Option.some_inj.mp he
                  subst hde
                  exact absurd hd0 he0
                · exact ⟨b, hb', hmb, hb2, e, he, he0⟩
            · intro b hb hb2
              rcases List.mem_cons.mp hb with rfl | hb'
              · exact ⟨d, hd⟩
              · exact hcov b hb' hb2
          · rw [if_neg hd0] at h
            simp only [Option.some.injEq, Prod.mk.injEq] at h
            obtain ⟨h1, h2, h3⟩ := h
            subst h1
            subst h2
            subst h3
            refine ⟨?_, ?_, ?_, ?_⟩
            · intro m
              rw [hdc m]
              constructor
              · rintro ⟨b, hb, hmb, hb2⟩
                exact ⟨b, List.mem_cons_of_mem a hb, hmb, hb2⟩
              · rintro ⟨b, hb, hmb, hb2⟩
                rcases List.mem_cons.mp hb with rfl | hb'
                · rw [hrelT] at hb2
                  cases hb2
                · exact ⟨b, hb', hmb, hb2⟩
            · intro m
              rw [hneg m]
              constructor
              · rintro ⟨b, hb, hmb, hb2⟩
                exact ⟨b, List.mem_cons_of_mem a hb, hmb, hb2⟩
              · rintro ⟨b, hb, hmb, hb2, e, he, he0⟩
                rcases List.mem_cons.mp hb with rfl | hb'
                · rw [hd] at he
                  have hde : d = e := Option.some_inj.mp he
                  subst hde
                  exact absurd he0 hd0
                · exact ⟨b, hb', hmb, hb2, e, he, he0⟩
            · intro m
              constructor
              · intro hm
                rcases List.mem_cons.mp hm with rfl | hm'
                · exact ⟨a, List.mem_cons_self a rest, rfl, hrelT, d, hd, hd0⟩
                · obtain ⟨b, hb, hmb, hb2, hb3⟩ := (hpos m).mp hm'
                  exact ⟨b, List.mem_cons_of_mem a hb, hmb, hb2, hb3⟩
              · rintro ⟨b, hb, hmb, hb2, e, he, he0⟩
                rcases List.mem_cons.mp hb with rfl | hb'
                · exact List.mem_cons.mpr (Or.inl hmb.symm)
                · exact List.mem_cons.mpr (Or.inr ((hpos m).mpr ⟨b, hb', hmb, hb2, e, he, he0⟩))
            · intro b hb hb2
              rcases List.mem_cons.mp hb with rfl | hb'
              · exact ⟨d, hd⟩
              · exact hcov b hb' hb2

/-- C4: after minterm building succeeds for an output pin with non-empty
`depends` (bit masks sorted strictly ascending, bitmap = OR of the masks,
`k = |depends|`), the positive, negative and don't-care minterm sets are
pairwise disjoint and their union is `{0, 1, ..., 2^k - 1}`. -/
theorem claim_C4 (A H D : Nat) (img : Image) (opBitmask opHizMask : Nat)
    (bits : List Nat) (pinnames : List String) (M oeBitmap : Nat)
    (hasc : List.Pairwise (· < ·) bits) (hpow : ∀ b ∈ bits, ∃ e, b = 2 ^ e)
    (hM : M = listOr bits) (hM0 : M ≠ 0)
    (dc neg pos : List Nat)
    (hres : classifyTerms A H D img opBitmask opHizMask ⟨M, bits, pinnames⟩ oeBitmap
      (iterate_mask M) = some (dc, neg, pos)) :
    (∀ m, (m ∈ pos ∨ m ∈ neg ∨ m ∈ dc) ↔ m < 2 ^ bits.length) ∧
    (∀ m, ¬(m ∈ pos ∧ m ∈ neg)) ∧ (∀ m, ¬(m ∈ pos ∧ m ∈ dc)) ∧
    (∀ m, ¬(m ∈ neg ∧ m ∈ dc)) := by
  obtain ⟨hdc, hneg, hpos, hcov⟩ :=
    classifyTerms_spec A H D img opBitmask opHizMask ⟨M, bits, pinnames⟩ oeBitmap
      (iterate_mask M) dc neg pos hres
  dsimp only at hdc hneg hpos hcov
  have hM1 : 1 ≤ M := Nat.pos_of_ne_zero hM0
  have hmem : ∀ a, a ∈ iterate_mask M ↔ a &&& M = a := by
    intro a
    rw [mem_iterate_mask]
    exact ⟨fun h => h.2, fun h => ⟨hM1, h⟩⟩
  have hinj : ∀ a1 a2, a1 &&& M = a1 → a2 &&& M = a2 →
      build_outputpin_minterm bits a1 = build_outputpin_minterm bits a2 → a1 = a2 := by
    intro a1 a2 h1 h2 hm
    have e1 := combine_minterm bits hpow a1 (by rw [← hM]; exact h1)
    have e2 := combine_minterm bits hpow a2 (by rw [← hM]; exact h2)
    rw [← e1, ← e2, hm]
  refine ⟨?_, ?_, ?_, ?_⟩
  · intro m
    constructor
    · rintro (hm | hm | hm)
      · obtain ⟨a, _, hma, _⟩ := (hpos m).mp hm
        rw [← hma]
        exact minterm_lt bits a
      · obtain ⟨a, _, hma, _⟩ := (hneg m).mp hm
        rw [← hma]
        exact minterm_lt bits a
      · obtain ⟨a, _, hma, _⟩ := (hdc m).mp hm
        rw [← hma]
        exact minterm_lt bits a
    · intro hm
      have hamem : combineBits bits m 1 ∈ iterate_mask M := by
        rw [hmem]
        rw [hM]
        exact combineBits_and_listOr bits m
      have hma : build_outputpin_minterm bits (combineBits bits m 1) = m :=
        minterm_combine bits hasc hpow m hm
      by_cases hra : check_input_combination_is_relevent A H D img M (combineBits bits m 1) = false
      · exact Or.inr (Or.inr ((hdc m).mpr ⟨combineBits bits m 1, hamem, hma, hra⟩))
      · have hraT : check_input_combination_is_relevent A H D img M (combineBits bits m 1)
            = true := by
          cases hc : check_input_combination_is_relevent A H D img M (combineBits bits m 1)
          · exact absurd hc hra
          · rfl
        obtain ⟨d, hd⟩ := hcov (combineBits bits m 1) hamem hraT
        by_cases hd0 : d &&& opBitmask = 0
        · exact Or.inr (Or.inl ((hneg m).mpr ⟨combineBits bits m 1, hamem, hma, hraT, d, hd, hd0⟩))
        · exact Or.inl ((hpos m).mpr ⟨combineBits bits m 1, hamem, hma, hraT, d, hd, hd0⟩)
  · rintro m ⟨hp, hn⟩
    obtain ⟨a1, ha1, hm1, _, d1, hd1, hd10⟩ := (hpos m).mp hp
    obtain ⟨a2, ha2, hm2, _, d2, hd2, hd20⟩ := (hneg m).mp hn
    have ha : a1 = a2 := hinj a1 a2 ((hmem a1).mp ha1) ((hmem a2).mp ha2) (by rw [hm1, hm2])
    subst ha
    rw [hd1] at hd2
    have hdd : d1 = d2 := Option.some_inj.mp hd2
    subst hdd
    exact hd10 hd20
  · rintro m ⟨hp, hc⟩
    obtain ⟨a1, ha1, hm1, hr1, _⟩ := (hpos m).mp hp
    obtain ⟨a2, ha2, hm2, hr2⟩ := (hdc m).mp hc
    have ha : a1 = a2 := hinj a1 a2 ((hmem a1).mp ha1) ((hmem a2).mp ha2) (by rw [hm1, hm2])
    subst ha
    rw [hr1] at hr2
    exact Bool.noConfusion hr2
  · rintro m ⟨hn, hc⟩
    obtain ⟨a1, ha1, hm1, hr1, _⟩ := (hneg m).mp hn
    obtain ⟨a2, ha2, hm2, hr2⟩ := (hdc m).mp hc
    have ha : a1 = a2 := hinj a1 a2 ((hmem a1).mp ha1) ((hmem a2).mp ha2) (by rw [hm1, hm2])
    subst ha
    rw [hr1] at hr2
    exact Bool.noConfusion hr2

/-- Witness for C4: a one-input, one-output device where every combination is a
don't-care (the probe mask is contained in `depends`). -/
theorem claim_C4_witness :
    List.Pairwise (· < ·) [1] ∧ (∀ b ∈ [1], ∃ e, b = 2 ^ e) ∧ (1 : Nat) = listOr [1] ∧
      (1 : Nat) ≠ 0 ∧
      classifyTerms 1 1 1 (fun _ => 0) 1 1 ⟨1, [1], ["I"]⟩ 0 (iterate_mask 1) =
        some ([0, 1], [], []) ∧
      ((∀ m, (m ∈ ([] : List Nat) ∨ m ∈ ([] : List Nat) ∨ m ∈ [0, 1]) ↔
          m < 2 ^ ([1] : List Nat).length) ∧
        (∀ m, ¬(m ∈ ([] : List Nat) ∧ m ∈ ([] : List Nat))) ∧
        (∀ m, ¬(m ∈ ([] : List Nat) ∧ m ∈ [0, 1])) ∧
        (∀ m, ¬(m ∈ ([] : List Nat) ∧ m ∈ [0, 1]))) := by
  have hpow : ∀ b ∈ [1], ∃ e, b = 2 ^ e := by
    intro b hb
    fin_cases hb
    exact ⟨0, rfl⟩
  have hres : classifyTerms 1 1 1 (fun _ => 0) 1 1 ⟨1, [1], ["I"]⟩ 0 (iterate_mask 1) =
      some ([0, 1], [], []) := by
    rw [iterate_mask_one]
    rfl
  exact ⟨by decide, hpow, by decide, by decide, hres,
    claim_C4 1 1 1 (fun _ => 0) 1 1 [1] ["I"] 1 0 (by decide) hpow (by decide) (by decide)
      [0, 1] [] [] hres⟩

/-! ### Lemmas about the dependency scan -/

theorem seenUpdate_fields (hz : Bool) (o : Nat) (s : DepState) :
    (seenUpdate hz o s).oe_pinnames = s.oe_pinnames ∧
    (seenUpdate hz o s).oe_bits = s.oe_bits ∧
    (seenUpdate hz o s).oe_bitmap = s.oe_bitmap ∧
    (seenUpdate hz o s).dep_pinnames = s.dep_pinnames ∧
    (seenUpdate hz o s).dep_bits = s.dep_bits ∧
    (seenUpdate hz o s).dep_bitmap = s.dep_bitmap := by
  rw [seenUpdate]
  split
  · split
    · exact ⟨rfl, rfl, rfl, rfl, rfl, rfl⟩
    · exact ⟨rfl, rfl, rfl, rfl, rfl, rfl⟩
  · exact ⟨rfl, rfl, rfl, rfl, rfl, rfl⟩

theorem seenUpdate_seen_false (hz : Bool) (o : Nat) (s : DepState)
    (hl : (seenUpdate hz o s).seenlow = false) (hh : (seenUpdate hz o s).seenhigh = false) :
    hz = true ∧ s.seenlow = false ∧ s.seenhigh = false := by
  rw [seenUpdate] at hl hh
  by_cases h : hz = false
  · rw [if_pos h] at hl hh
    by_cases h0 : o = 0
    · rw [if_pos h0] at hl
      exact Bool.noConfusion hl
    · rw [if_neg h0] at hh
      exact Bool.noConfusion hh
  · rw [if_neg h] at hl hh
    exact ⟨by cases hz; exact absurd rfl h; rfl, hl, hh⟩

theorem dependsAdd_fields (ip : InPinCfg) (hz0 hz1 : Bool) (o0 o1 : Nat) (s : DepState) :
    (dependsAdd ip hz0 hz1 o0 o1 s).oe_pinnames = s.oe_pinnames ∧
    (dependsAdd ip hz0 hz1 o0 o1 s).oe_bits = s.oe_bits ∧
    (dependsAdd ip hz0 hz1 o0 o1 s).oe_bitmap = s.oe_bitmap ∧
    (dependsAdd ip hz0 hz1 o0 o1 s).seenlow = s.seenlow ∧
    (dependsAdd ip hz0 hz1 o0 o1 s).seenhigh = s.seenhigh := by
  rw [dependsAdd]
  split
  · exact ⟨rfl, rfl, rfl, rfl, rfl⟩
  · exact ⟨rfl, rfl, rfl, rfl, rfl⟩

theorem dependsAdd_mem (ip : InPinCfg) (hz0 hz1 : Bool) (o0 o1 : Nat) (s : DepState)
    (nm : String) :
    nm ∈ (dependsAdd ip hz0 hz1 o0 o1 s).dep_pinnames ↔
      nm ∈ s.dep_pinnames ∨ (nm = ip.name ∧ hz0 = false ∧ hz1 = false ∧ o0 ≠ o1) := by
  rw [dependsAdd]
  split
  · rename_i hcond
    simp only [List.mem_append, List.mem_singleton]
    constructor
    · rintro (h | rfl)
      · exact Or.inl h
      · exact Or.inr ⟨rfl, hcond.1, hcond.2.1, hcond.2.2.1⟩
    · rintro (h | ⟨rfl, _⟩)
      · exact Or.inl h
      · exact Or.inr rfl
  · rename_i hcond
    constructor
    · exact Or.inl
    · rintro (h | ⟨rfl, hc1, hc2, hc3⟩)
      · exact h
      · by_cases hmem : ip.name ∈ s.dep_pinnames
        · exact hmem
        · exact absurd ⟨hc1, hc2, hc3, hmem⟩ hcond

theorem dependsAdd_bitmap_of_hiz (ip : InPinCfg) (hz0 hz1 : Bool) (o0 o1 : Nat) (s : DepState)
    (h : hz0 = true) : (dependsAdd ip hz0 hz1 o0 o1 s).dep_bitmap = s.dep_bitmap := by
  rw [dependsAdd, if_neg]
  rintro ⟨h0, _⟩
  rw [h] at h0
  exact Bool.noConfusion h0

theorem oeDependsAdd_fields (ip : InPinCfg) (hz0 hz1 : Bool) (s : DepState) :
    (oeDependsAdd ip hz0 hz1 s).dep_pinnames = s.dep_pinnames ∧
    (oeDependsAdd ip hz0 hz1 s).dep_bits = s.dep_bits ∧
    (oeDependsAdd ip hz0 hz1 s).dep_bitmap = s.dep_bitmap ∧
    (oeDependsAdd ip hz0 hz1 s).seenlow = s.seenlow ∧
    (oeDependsAdd ip hz0 hz1 s).seenhigh = s.seenhigh := by
  rw [oeDependsAdd]
  split
  · exact ⟨rfl, rfl, rfl, rfl, rfl⟩
  · exact ⟨rfl, rfl, rfl, rfl, rfl⟩

theorem oeDependsAdd_mem (ip : InPinCfg) (hz0 hz1 : Bool) (s : DepState) (nm : String) :
    nm ∈ (oeDependsAdd ip hz0 hz1 s).oe_pinnames ↔
      nm ∈ s.oe_pinnames ∨ (nm = ip.name ∧ hz0 ≠ hz1) := by
  rw [oeDependsAdd]
  split
  · rename_i hcond
    simp only [List.mem_append, List.mem_singleton]
    constructor
    · rintro (h | rfl)
      · exact Or.inl h
      · exact Or.inr ⟨rfl, hcond.1⟩
    · rintro (h | ⟨rfl, _⟩)
      · exact Or.inl h
      · exact Or.inr rfl
  · rename_i hcond
    constructor
    · exact Or.inl
    · rintro (h | ⟨rfl, hc1⟩)
      · exact h
      · by_cases hmem : ip.name ∈ s.oe_pinnames
        · exact hmem
        · exact absurd ⟨hc1, hmem⟩ hcond

/-- Membership in `oe_depends.pinnames` after one loop-body step. -/
theorem depStep_oe_mem (img : Image) (op : OutCfg) (ip : InPinCfg) (addr : Nat)
    (s : DepState) (nm : String) :
    nm ∈ (depStep img op ip addr s).oe_pinnames ↔
      nm ∈ s.oe_pinnames ∨
        (nm = ip.name ∧ addr &&& ip.bitmask = 0 ∧ addr &&& op.hizprobebitmask = 0 ∧
          (addr ||| ip.bitmask) &&& op.hizprobebitmask = 0 ∧
          is_hiz img op addr ≠ is_hiz img op (addr ||| ip.bitmask)) := by
  rw [depStep]
  by_cases h1 : addr &&& ip.bitmask > 0
  · rw [if_pos h1]
    constructor
    · exact Or.inl
    · rintro (h | ⟨_, h2, _⟩)
      · exact h
      · omega
  · rw [if_neg h1]
    by_cases h2 : addr &&& op.hizprobebitmask > 0
    · rw [if_pos h2]
      constructor
      · exact Or.inl
      · rintro (h | ⟨_, _, h3, _⟩)
        · exact h
        · omega
    · rw [if_neg h2]
      by_cases h3 : (addr ||| ip.bitmask) &&& op.hizprobebitmask > 0
      · rw [if_pos h3]
        constructor
        · exact Or.inl
        · rintro (h | ⟨_, _, _, h4, _⟩)
          · exact h
          · omega
      · rw [if_neg h3]
        rw [(seenUpdate_fields _ _ _).1, (seenUpdate_fields _ _ _).1,
          (dependsAdd_fields _ _ _ _ _ _).1]
        rw [oeDependsAdd_mem]
        constructor
        · rintro (h | ⟨rfl, hn⟩)
          · exact Or.inl h
          · exact Or.inr ⟨rfl, by omega, by omega, by omega, hn⟩
        · rintro (h | ⟨rfl, _, _, _, hn⟩)
          · exact Or.inl h
          · exact Or.inr ⟨rfl, hn⟩

/-- Membership in `depends.pinnames` after one loop-body step. -/
theorem depStep_dep_mem (img : Image) (op : OutCfg) (ip : InPinCfg) (addr : Nat)
    (s : DepState) (nm : String) :
    nm ∈ (depStep img op ip addr s).dep_pinnames ↔
      nm ∈ s.dep_pinnames ∨
        (nm = ip.name ∧ addr &&& ip.bitmask = 0 ∧ addr &&& op.hizprobebitmask = 0 ∧
          (addr ||| ip.bitmask) &&& op.hizprobebitmask = 0 ∧
          is_hiz img op addr = false ∧ is_hiz img op (addr ||| ip.bitmask) = false ∧
          img addr &&& op.bitmask ≠ img (addr ||| ip.bitmask) &&& op.bitmask) := by
  rw [depStep]
  by_cases h1 : addr &&& ip.bitmask > 0
  · rw [if_pos h1]
    constructor
    · exact Or.inl
    · rintro (h | ⟨_, h2, _⟩)
      · exact h
      · omega
  · rw [if_neg h1]
    by_cases h2 : addr &&& op.hizprobebitmask > 0
    · rw [if_pos h2]
      constructor
      · exact Or.inl
      · rintro (h | ⟨_, _, h3, _⟩)
        · exact h
        · omega
    · rw [if_neg h2]
      by_cases h3 : (addr ||| ip.bitmask) &&& op.hizprobebitmask > 0
      · rw [if_pos h3]
        constructor
        · exact Or.inl
        · rintro (h | ⟨_, _, _, h4, _⟩)
          · exact h
          · omega
      · rw [if_neg h3]
        rw [(seenUpdate_fields _ _ _).2.2.2.1, (seenUpdate_fields _ _ _).2.2.2.1]
        rw [dependsAdd_mem]
        rw [(oeDependsAdd_fields _ _ _ _).1]
        constructor
        · rintro (h | ⟨rfl, hz0, hz1, ho⟩)
          · exact Or.inl h
          · exact Or.inr ⟨rfl, by omega, by omega, by omega, hz0, hz1, ho⟩
        · rintro (h | ⟨rfl, _, _, _, hz0, hz1, ho⟩)
          · exact Or.inl h
          · exact Or.inr ⟨rfl, hz0, hz1, ho⟩

/-- If both seen flags are still clear after a step, they were clear before and
the step did not touch `depends.bitmap`. -/
theorem depStep_seen_inv (img : Image) (op : OutCfg) (ip : InPinCfg) (addr : Nat)
    (s : DepState)
    (hl : (depStep img op ip addr s).seenlow = false)
    (hh : (depStep img op ip addr s).seenhigh = false) :
    s.seenlow = false ∧ s.seenhigh = false ∧
      (depStep img op ip addr s).dep_bitmap = s.dep_bitmap := by
  rw [depStep] at hl hh ⊢
  by_cases h1 : addr &&& ip.bitmask > 0
  · rw [if_pos h1] at hl hh ⊢
    exact ⟨hl, hh, rfl⟩
  · rw [if_neg h1] at hl hh ⊢
    by_cases h2 : addr &&& op.hizprobebitmask > 0
    · rw [if_pos h2] at hl hh ⊢
      exact ⟨hl, hh, rfl⟩
    · rw [if_neg h2] at hl hh ⊢
      by_cases h3 : (addr ||| ip.bitmask) &&& op.hizprobebitmask > 0
      · rw [if_pos h3] at hl hh ⊢
        exact ⟨hl, hh, rfl⟩
      · rw [if_neg h3] at hl hh ⊢
        obtain ⟨hz1T, hl2, hh2⟩ := seenUpdate_seen_false _ _ _ hl hh
        obtain ⟨hz0T, hl3, hh3⟩ := seenUpdate_seen_false _ _ _ hl2 hh2
        have hda := dependsAdd_bitmap_of_hiz ip (is_hiz img op addr)
          (is_hiz img op (addr ||| ip.bitmask)) (img addr &&& op.bitmask)
          (img (addr ||| ip.bitmask) &&& op.bitmask)
          (oeDependsAdd ip (is_hiz img op addr) (is_hiz img op (addr ||| ip.bitmask)) s) hz0T
        refine ⟨?_, ?_, ?_⟩
        · rw [(dependsAdd_fields _ _ _ _ _ _).2.2.2.1, (oeDependsAdd_fields _ _ _ _).2.2.2.1]
            at hl3
          exact hl3
        · rw [(dependsAdd_fields _ _ _ _ _ _).2.2.2.2, (oeDependsAdd_fields _ _ _ _).2.2.2.2]
            at hh3
          exact hh3
        · rw [(seenUpdate_fields _ _ _).2.2.2.2.2, (seenUpdate_fields _ _ _).2.2.2.2.2, hda,
            (oeDependsAdd_fields _ _ _ _).2.2.1]

/-- Generic accumulation lemma: if each step can only add names characterized
by `Q`, the fold's final list contains exactly the initial names and the names
triggered by some list element. -/
theorem foldl_mem_iff {α : Type _} (f : DepState → α → DepState) (proj : DepState → List String)
    (Q : α → String → Prop)
    (hstep : ∀ s a nm, nm ∈ proj (f s a) ↔ nm ∈ proj s ∨ Q a nm) :
    ∀ (l : List α) (s : DepState) (nm : String),
      nm ∈ proj (l.foldl f s) ↔ nm ∈ proj s ∨ ∃ a ∈ l, Q a nm := by
  intro l
  induction l with
  | nil =>
    intro s nm
    simp
  | cons a rest ih =>
    intro s nm
    rw [List.foldl_cons, ih, hstep]
    constructor
    · rintro ((h | hq) | ⟨b, hb, hqb⟩)
      · exact Or.inl h
      · exact Or.inr ⟨a, List.mem_cons_self a rest, hq⟩
      · exact Or.inr ⟨b, List.mem_cons_of_mem a hb, hqb⟩
    · rintro (h | ⟨b, hb, hqb⟩)
      · exact Or.inl (Or.inl h)
      · rcases List.mem_cons.mp hb with rfl | hbr
        · exact Or.inl (Or.inr hqb)
        · exact Or.inr ⟨b, hbr, hqb⟩

/-- Membership in `oe_depends.pinnames` after the whole scan. -/
theorem depScanPin_oe_mem (A : Nat) (img : Image) (ips : List InPinCfg) (op : OutCfg)
    (nm : String) :
    nm ∈ (depScanPin A img ips op).oe_pinnames ↔
      ∃ addr, addr < 2 ^ A ∧ ∃ ip ∈ ips, nm = ip.name ∧
        addr &&& ip.bitmask = 0 ∧ addr &&& op.hizprobebitmask = 0 ∧
        (addr ||| ip.bitmask) &&& op.hizprobebitmask = 0 ∧
        is_hiz img op addr ≠ is_hiz img op (addr ||| ip.bitmask) := by
  rw [depScanPin]
  rw [foldl_mem_iff
    (fun s epromaddr => ips.foldl (fun t ip => depStep img op ip epromaddr t) s)
    DepState.oe_pinnames
    (fun addr nm => ∃ ip ∈ ips, nm = ip.name ∧
      addr &&& ip.bitmask = 0 ∧ addr &&& op.hizprobebitmask = 0 ∧
      (addr ||| ip.bitmask) &&& op.hizprobebitmask = 0 ∧
      is_hiz img op addr ≠ is_hiz img op (addr ||| ip.bitmask))
    (fun s addr nm => by
      rw [foldl_mem_iff (fun t ip => depStep img op ip addr t) DepState.oe_pinnames
        (fun ip nm => nm = ip.name ∧
          addr &&& ip.bitmask = 0 ∧ addr &&& op.hizprobebitmask = 0 ∧
          (addr ||| ip.bitmask) &&& op.hizprobebitmask = 0 ∧
          is_hiz img op addr ≠ is_hiz img op (addr ||| ip.bitmask))
        (fun s ip nm => depStep_oe_mem img op ip addr s nm) ips s nm])
    (List.range (2 ^ A)) initDepState nm]
  constructor
  · rintro (h | ⟨addr, haddr, hq⟩)
    · exact absurd h (List.not_mem_nil nm)
    · exact ⟨addr, List.mem_range.mp haddr, hq⟩
  · rintro ⟨addr, haddr, hq⟩
    exact Or.inr ⟨addr, List.mem_range.mpr haddr, hq⟩

/-- Membership in `depends.pinnames` after the whole scan. -/
theorem depScanPin_dep_mem (A : Nat) (img : Image) (ips : List InPinCfg) (op : OutCfg)
    (nm : String) :
    nm ∈ (depScanPin A img ips op).dep_pinnames ↔
      ∃ addr, addr < 2 ^ A ∧ ∃ ip ∈ ips, nm = ip.name ∧
        addr &&& ip.bitmask = 0 ∧ addr &&& op.hizprobebitmask = 0 ∧
        (addr ||| ip.bitmask) &&& op.hizprobebitmask = 0 ∧
        is_hiz img op addr = false ∧ is_hiz img op (addr ||| ip.bitmask) = false ∧
        img addr &&& op.bitmask ≠ img (addr ||| ip.bitmask) &&& op.bitmask := by
  rw [depScanPin]
  rw [foldl_mem_iff
    (fun s epromaddr => ips.foldl (fun t ip => depStep img op ip epromaddr t) s)
    DepState.dep_pinnames
    (fun addr nm => ∃ ip ∈ ips, nm = ip.name ∧
      addr &&& ip.bitmask = 0 ∧ addr &&& op.hizprobebitmask = 0 ∧
      (addr ||| ip.bitmask) &&& op.hizprobebitmask = 0 ∧
      is_hiz img op addr = false ∧ is_hiz img op (addr ||| ip.bitmask) = false ∧
      img addr &&& op.bitmask ≠ img (addr ||| ip.bitmask) &&& op.bitmask)
    (fun s addr nm => by
      rw [foldl_mem_iff (fun t ip => depStep img op ip addr t) DepState.dep_pinnames
        (fun ip nm => nm = ip.name ∧
          addr &&& ip.bitmask = 0 ∧ addr &&& op.hizprobebitmask = 0 ∧
          (addr ||| ip.bitmask) &&& op.hizprobebitmask = 0 ∧
          is_hiz img op addr = false ∧ is_hiz img op (addr ||| ip.bitmask) = false ∧
          img addr &&& op.bitmask ≠ img (addr ||| ip.bitmask) &&& op.bitmask)
        (fun s ip nm => depStep_dep_mem img op ip addr s nm) ips s nm])
    (List.range (2 ^ A)) initDepState nm]
  constructor
  · rintro (h | ⟨addr, haddr, hq⟩)
    · exact absurd h (List.not_mem_nil nm)
    · exact ⟨addr, List.mem_range.mp haddr, hq⟩
  · rintro ⟨addr, haddr, hq⟩
    exact Or.inr ⟨addr, List.mem_range.mpr haddr, hq⟩

/-- C2: after the full dependency scan, an input pin is in `op.oe_depends` iff
some address pair (with the input bit clear and the probe bit clear in both
addresses) exhibits differing hi-z states, and it is in `op.depends` iff some
such pair has both states driven with differing masked data values. -/
theorem claim_C2 (A : Nat) (img : Image) (ips : List InPinCfg) (op : OutCfg)
    (ip : InPinCfg) (hmem : ip ∈ ips) (hnodup : (ips.map InPinCfg.name).Nodup) :
    (ip.name ∈ (depScanPin A img ips op).oe_pinnames ↔
      ∃ addr, addr < 2 ^ A ∧ addr &&& ip.bitmask = 0 ∧
        addr &&& op.hizprobebitmask = 0 ∧
        (addr ||| ip.bitmask) &&& op.hizprobebitmask = 0 ∧
        is_hiz img op addr ≠ is_hiz img op (addr ||| ip.bitmask)) ∧
    (ip.name ∈ (depScanPin A img ips op).dep_pinnames ↔
      ∃ addr, addr < 2 ^ A ∧ addr &&& ip.bitmask = 0 ∧
        addr &&& op.hizprobebitmask = 0 ∧
        (addr ||| ip.bitmask) &&& op.hizprobebitmask = 0 ∧
        is_hiz img op addr = false ∧ is_hiz img op (addr ||| ip.bitmask) = false ∧
        img addr &&& op.bitmask ≠ img (addr ||| ip.bitmask) &&& op.bitmask) := by
  have hinj : ∀ ip2 ∈ ips, ip.name = ip2.name → ip2 = ip := by
    intro ip2 hip2 hname
    exact List.inj_on_of_nodup_map hnodup hip2 hmem hname.symm
  constructor
  · rw [depScanPin_oe_mem]
    constructor
    · rintro ⟨addr, haddr, ip2, hip2, hname, hrest⟩
      obtain rfl := hinj ip2 hip2 hname
      exact ⟨addr, haddr, hrest⟩
    · rintro ⟨addr, haddr, hrest⟩
      exact ⟨addr, haddr, ip, hmem, rfl, hrest⟩
  · rw [depScanPin_dep_mem]
    constructor
    · rintro ⟨addr, haddr, ip2, hip2, hname, hrest⟩
      obtain rfl := hinj ip2 hip2 hname
      exact ⟨addr, haddr, hrest⟩
    · rintro ⟨addr, haddr, hrest⟩
      exact ⟨addr, haddr, ip, hmem, rfl, hrest⟩

/-- Folding any step that can only set the seen flags: if both flags are clear
at the end they were clear throughout and `depends.bitmap` never changed. -/
theorem foldl_seen_inv {α : Type _} (f : DepState → α → DepState)
    (hstep : ∀ s a, (f s a).seenlow = false → (f s a).seenhigh = false →
      s.seenlow = false ∧ s.seenhigh = false ∧ (f s a).dep_bitmap = s.dep_bitmap) :
    ∀ (l : List α) (s : DepState),
      (l.foldl f s).seenlow = false → (l.foldl f s).seenhigh = false →
        s.seenlow = false ∧ s.seenhigh = false ∧ (l.foldl f s).dep_bitmap = s.dep_bitmap := by
  intro l
  induction l with
  | nil =>
    intro s hl hh
    exact ⟨hl, hh, rfl⟩
  | cons a rest ih =>
    intro s hl hh
    rw [List.foldl_cons] at hl hh ⊢
    obtain ⟨hl2, hh2, hbm⟩ := ih (f s a) hl hh
    obtain ⟨hl3, hh3, hbm2⟩ := hstep s a hl2 hh2
    exact ⟨hl3, hh3, by rw [hbm, hbm2]⟩

/-- A pin never seen driving anything has an empty `depends` bitmap. -/
theorem depScanPin_seen_inv (A : Nat) (img : Image) (ips : List InPinCfg) (op : OutCfg)
    (hl : (depScanPin A img ips op).seenlow = false)
    (hh : (depScanPin A img ips op).seenhigh = false) :
    (depScanPin A img ips op).dep_bitmap = 0 := by
  rw [depScanPin] at hl hh ⊢
  have inner : ∀ (s : DepState) (addr : Nat),
      ((ips.foldl (fun t ip => depStep img op ip addr t) s)).seenlow = false →
      ((ips.foldl (fun t ip => depStep img op ip addr t) s)).seenhigh = false →
        s.seenlow = false ∧ s.seenhigh = false ∧
          (ips.foldl (fun t ip => depStep img op ip addr t) s).dep_bitmap = s.dep_bitmap := by
    intro s addr
    exact foldl_seen_inv (fun t ip => depStep img op ip addr t)
      (fun t ip => depStep_seen_inv img op ip addr t) ips s
  have h := foldl_seen_inv
    (fun s epromaddr => ips.foldl (fun t ip => depStep img op ip epromaddr t) s)
    (fun s addr => inner s addr) (List.range (2 ^ A)) initDepState hl hh
  rw [h.2.2]
  rfl

/-- The emitter-facing fields of `buildPinTerms` are copied straight from the
scan state. -/
theorem buildPinTerms_proj (A H D : Nat) (img : Image) (op : OutCfg) (s : DepState)
    (p : PinData) (h : buildPinTerms A H D img op s = some p) :
    p.depends.bitmap = s.dep_bitmap ∧ p.oe_depends.bitmap = s.oe_bitmap ∧
      p.seenlow = s.seenlow ∧ p.seenhigh = s.seenhigh := by
  rw [buildPinTerms] at h
  dsimp only at h
  cases ht : (if s.dep_bitmap ≠ 0 then
      classifyTerms A H D img op.bitmask op.hizprobebitmask
        ⟨s.dep_bitmap, (sortDepPairs s.dep_bits s.dep_pinnames).1,
          (sortDepPairs s.dep_bits s.dep_pinnames).2⟩ s.oe_bitmap
        (iterate_mask s.dep_bitmap)
    else some ([], [], [])) with
  | none =>
    rw [ht] at h
    cases h
  | some t =>
    obtain ⟨dc, neg, pos⟩ := t
    rw [ht] at h
    dsimp only at h
    have hp := Option.some_inj.mp h
    rw [← hp]
    exact ⟨rfl, rfl, rfl, rfl⟩

/-- C9: an output pin with `oe_depends.bitmap = 0` that was never seen high
nor low produces no output equation at all in the "Output equations" section
(the always-hi-z pin is treated as an input). -/
theorem claim_C9 (A H D : Nat) (img : Image) (ips : List InPinCfg) (op : OutCfg)
    (simplify : Simplifier) (polarity : Polarity) (p : PinData)
    (hp : buildPinTerms A H D img op (depScanPin A img ips op) = some p)
    (_hoe : p.oe_depends.bitmap = 0) (hl : p.seenlow = false) (hh : p.seenhigh = false) :
    pinOutputEqLines simplify polarity p = [] := by
  obtain ⟨hdep, _, hsl, hsh⟩ := buildPinTerms_proj A H D img op _ p hp
  have hbm0 : (depScanPin A img ips op).dep_bitmap = 0 :=
    depScanPin_seen_inv A img ips op (by rw [← hsl]; exact hl) (by rw [← hsh]; exact hh)
  rw [pinOutputEqLines, if_pos (by rw [hdep, hbm0]), if_neg (by simp [hh]),
    if_neg (by simp [hl])]

/-- Witness for C9: the trivial zero-width device; the scan leaves a fresh pin
state and the emitter writes nothing for it. -/
theorem claim_C9_witness :
    buildPinTerms 0 0 0 (fun _ => 0) ⟨"O", 12, 0, 1, none, 0⟩
        (depScanPin 0 (fun _ => 0) [] ⟨"O", 12, 0, 1, none, 0⟩) =
      some ⟨"O", ⟨0, [], []⟩, ⟨0, [], []⟩, false, false, [], [], [], [], []⟩ ∧
    (⟨"O", ⟨0, [], []⟩, ⟨0, [], []⟩, false, false, [], [], [], [], []⟩ :
        PinData).oe_depends.bitmap = 0 ∧
    (⟨"O", ⟨0, [], []⟩, ⟨0, [], []⟩, false, false, [], [], [], [], []⟩ :
        PinData).seenlow = false ∧
    (⟨"O", ⟨0, [], []⟩, ⟨0, [], []⟩, false, false, [], [], [], [], []⟩ :
        PinData).seenhigh = false ∧
    pinOutputEqLines (fun _ _ _ => SimpResult.const true) Polarity.auto
      ⟨"O", ⟨0, [], []⟩, ⟨0, [], []⟩, false, false, [], [], [], [], []⟩ = [] := by
  have hscan : depScanPin 0 (fun _ => 0) [] (⟨"O", 12, 0, 1, none, 0⟩ : OutCfg) =
      initDepState := rfl
  have hp : buildPinTerms 0 0 0 (fun _ => 0) ⟨"O", 12, 0, 1, none, 0⟩
      (depScanPin 0 (fun _ => 0) [] ⟨"O", 12, 0, 1, none, 0⟩) =
      some ⟨"O", ⟨0, [], []⟩, ⟨0, [], []⟩, false, false, [], [], [], [], []⟩ := by
    rw [hscan]
    rw [buildPinTerms]
    simp [sortDepPairs, initDepState]
  refine ⟨hp, rfl, rfl, rfl, ?_⟩
  exact claim_C9 0 0 0 (fun _ => 0) [] ⟨"O", 12, 0, 1, none, 0⟩
    (fun _ _ _ => SimpResult.const true) Polarity.auto _ hp rfl rfl rfl

/-- Witness for C2: a one-input identity device; the output follows the input,
so the input is a value dependency but not an OE dependency. -/
theorem claim_C2_witness :
    (⟨"I", 1⟩ : InPinCfg) ∈ [(⟨"I", 1⟩ : InPinCfg)] ∧
      (([(⟨"I", 1⟩ : InPinCfg)]).map InPinCfg.name).Nodup ∧
      (((⟨"I", 1⟩ : InPinCfg).name ∈
          (depScanPin 1 (fun a => a) [⟨"I", 1⟩] ⟨"O", 12, 0, 1, none, 0⟩).oe_pinnames ↔
        ∃ addr, addr < 2 ^ 1 ∧ addr &&& (⟨"I", 1⟩ : InPinCfg).bitmask = 0 ∧
          addr &&& (⟨"O", 12, 0, 1, none, 0⟩ : OutCfg).hizprobebitmask = 0 ∧
          (addr ||| (⟨"I", 1⟩ : InPinCfg).bitmask) &&&
            (⟨"O", 12, 0, 1, none, 0⟩ : OutCfg).hizprobebitmask = 0 ∧
          is_hiz (fun a => a) ⟨"O", 12, 0, 1, none, 0⟩ addr ≠
            is_hiz (fun a => a) ⟨"O", 12, 0, 1, none, 0⟩
              (addr ||| (⟨"I", 1⟩ : InPinCfg).bitmask)) ∧
       ((⟨"I", 1⟩ : InPinCfg).name ∈
          (depScanPin 1 (fun a => a) [⟨"I", 1⟩] ⟨"O", 12, 0, 1, none, 0⟩).dep_pinnames ↔
        ∃ addr, addr < 2 ^ 1 ∧ addr &&& (⟨"I", 1⟩ : InPinCfg).bitmask = 0 ∧
          addr &&& (⟨"O", 12, 0, 1, none, 0⟩ : OutCfg).hizprobebitmask = 0 ∧
          (addr ||| (⟨"I", 1⟩ : InPinCfg).bitmask) &&&
            (⟨"O", 12, 0, 1, none, 0⟩ : OutCfg).hizprobebitmask = 0 ∧
          is_hiz (fun a => a) ⟨"O", 12, 0, 1, none, 0⟩ addr = false ∧
          is_hiz (fun a => a) ⟨"O", 12, 0, 1, none, 0⟩
            (addr ||| (⟨"I", 1⟩ : InPinCfg).bitmask) = false ∧
          (fun a => a) addr &&& (⟨"O", 12, 0, 1, none, 0⟩ : OutCfg).bitmask ≠
            (fun a => a) (addr ||| (⟨"I", 1⟩ : InPinCfg).bitmask) &&&
              (⟨"O", 12, 0, 1, none, 0⟩ : OutCfg).bitmask)) :=
  ⟨by decide, by decide,
    claim_C2 1 (fun a => a) [⟨"I", 1⟩] ⟨"O", 12, 0, 1, none, 0⟩ ⟨"I", 1⟩
      (by decide) (by decide)⟩

/-! ### Lemmas about the equation emitter -/

/-- A product-list minimizer result renders as exactly one line per product. -/
theorem write_pin_equations_products_length (name : String) (pinnames : List String)
    (l : List (Nat × Nat)) (pol : String) :
    (write_pin_equations name pinnames (SimpResult.products l) pol).length = l.length := by
  rw [write_pin_equations]
  rw [productLines, List.length_map, List.enum_length, List.length_mergeSort]

/-- C6: under `polarity = auto`, the positive rendering is chosen whenever the
positive simplification is a literal boolean; and when both simplifications
return product lists the emitted equation has `min(|pos|, |neg|)` products
(plus the blank separator line), ties choosing positive. -/
theorem claim_C6 (simplify : Simplifier) (p : PinData) (hbm : p.depends.bitmap ≠ 0) :
    (∀ b, simplify p.depends.pinnames.length p.posminterms p.dontcareterms =
        SimpResult.const b →
      pinOutputEqLines simplify Polarity.auto p =
        write_pin_equations p.name p.depends.pinnames (SimpResult.const b) "positive" ++ [""]) ∧
    (∀ l1 l2, simplify p.depends.pinnames.length p.posminterms p.dontcareterms =
          SimpResult.products l1 →
        simplify p.depends.pinnames.length p.negminterms p.dontcareterms =
          SimpResult.products l2 →
        ((pinOutputEqLines simplify Polarity.auto p).length = min l1.length l2.length + 1) ∧
        (l1.length ≤ l2.length →
          pinOutputEqLines simplify Polarity.auto p =
            write_pin_equations p.name p.depends.pinnames (SimpResult.products l1)
              "positive" ++ [""]) ∧
        (l2.length < l1.length →
          pinOutputEqLines simplify Polarity.auto p =
            write_pin_equations p.name p.depends.pinnames (SimpResult.products l2)
              "negative" ++ [""])) := by
  constructor
  · intro b hb
    rw [pinOutputEqLines, if_neg hbm]
    rw [hb]
    rw [if_neg (by simp), if_pos (Or.inr ⟨rfl, Or.inl rfl⟩)]
  · intro l1 l2 h1 h2
    rw [pinOutputEqLines, if_neg hbm]
    rw [h1, h2]
    rw [if_neg (by simp)]
    by_cases hle : l1.length ≤ l2.length
    · rw [if_pos (Or.inr ⟨rfl, Or.inr (by rw [prodLen, prodLen]; exact hle)⟩)]
      refine ⟨?_, fun _ => rfl, fun hlt => absurd hle (by omega)⟩
      rw [List.length_append, write_pin_equations_products_length]
      simp only [List.length_singleton]
      omega
    · rw [if_neg]
      · refine ⟨?_, fun hle2 => absurd hle2 hle, fun _ => rfl⟩
        rw [List.length_append, write_pin_equations_products_length]
        simp only [List.length_singleton]
        omega
      · rintro (h | ⟨_, (h | h)⟩)
        · exact Polarity.noConfusion h
        · rw [isBoolResult] at h
          exact Bool.noConfusion h
        · rw [prodLen, prodLen] at h
          exact hle h

/-- Witness for C6 with a one-product minimizer on both polarities (a tie,
resolved to positive). -/
theorem claim_C6_witness :
    (⟨"O", ⟨1, [1], ["I"]⟩, ⟨0, [], []⟩, true, true, [], [0], [1], [], []⟩ :
        PinData).depends.bitmap ≠ 0 ∧
      (((pinOutputEqLines (fun _ _ _ => SimpResult.products [(1, 1)]) Polarity.auto
            ⟨"O", ⟨1, [1], ["I"]⟩, ⟨0, [], []⟩, true, true, [], [0], [1], [], []⟩).length =
          min [((1 : Nat), (1 : Nat))].length [((1 : Nat), (1 : Nat))].length + 1) ∧
        ([((1 : Nat), (1 : Nat))].length ≤ [((1 : Nat), (1 : Nat))].length →
          pinOutputEqLines (fun _ _ _ => SimpResult.products [(1, 1)]) Polarity.auto
              ⟨"O", ⟨1, [1], ["I"]⟩, ⟨0, [], []⟩, true, true, [], [0], [1], [], []⟩ =
            write_pin_equations "O" ["I"] (SimpResult.products [(1, 1)]) "positive" ++ [""]) ∧
        ([((1 : Nat), (1 : Nat))].length < [((1 : Nat), (1 : Nat))].length →
          pinOutputEqLines (fun _ _ _ => SimpResult.products [(1, 1)]) Polarity.auto
              ⟨"O", ⟨1, [1], ["I"]⟩, ⟨0, [], []⟩, true, true, [], [0], [1], [], []⟩ =
            write_pin_equations "O" ["I"] (SimpResult.products [(1, 1)]) "negative" ++ [""])) :=
  ⟨by decide,
    (claim_C6 (fun _ _ _ => SimpResult.products [(1, 1)])
        ⟨"O", ⟨1, [1], ["I"]⟩, ⟨0, [], []⟩, true, true, [], [0], [1], [], []⟩
        (by decide)).2 [(1, 1)] [(1, 1)] rfl rfl⟩

/-- C8 counterexample: an output pin with `oe_depends.bitmap = 0` that was
never seen high nor low still gets a `.oe` equation, namely `name.oe = 'b'0;`
(the claim says it gets none). -/
theorem claim_C8_counterexample :
    pinOeEqLines (fun _ _ _ => SimpResult.const true) Polarity.auto
        ⟨"B0", ⟨0, [], []⟩, ⟨0, [], []⟩, false, false, [], [], [], [], []⟩ =
      ["B0.oe = \x27b\x270;", ""] ∧
    pinOeEqLines (fun _ _ _ => SimpResult.const true) Polarity.auto
        ⟨"B0", ⟨0, [], []⟩, ⟨0, [], []⟩, false, false, [], [], [], [], []⟩ ≠ [] := by
  constructor
  · decide
  · decide

/-- C8 (amended): every output pin receives a `.oe` equation.  Under the auto
polarity a pin with `oe_depends.bitmap = 0` that was observed driving gets
`.oe = 'b'1`, one never observed driving gets `.oe = 'b'0` (rather than no
equation), and a pin with a non-empty `oe_depends` whose minimizer covers are
non-empty product lists gets at least one equation line. -/
theorem claim_C8 (simplify : Simplifier) (p : PinData) :
    (p.oe_depends.bitmap = 0 → (p.seenhigh = true ∨ p.seenlow = true) →
      pinOeEqLines simplify Polarity.auto p = [p.name ++ ".oe" ++ " = \x27b\x271;", ""]) ∧
    (p.oe_depends.bitmap = 0 → p.seenhigh = false → p.seenlow = false →
      pinOeEqLines simplify Polarity.auto p = [p.name ++ ".oe" ++ " = \x27b\x270;", ""]) ∧
    (∀ l1 l2, p.oe_depends.bitmap ≠ 0 →
      simplify p.oe_depends.pinnames.length p.oeposminterms [] = SimpResult.products l1 →
      simplify p.oe_depends.pinnames.length p.oenegminterms [] = SimpResult.products l2 →
      l1 ≠ [] → l2 ≠ [] → 2 ≤ (pinOeEqLines simplify Polarity.auto p).length) := by
  refine ⟨?_, ?_, ?_⟩
  · intro h0 hseen
    rw [pinOeEqLines, if_pos h0, if_pos hseen]
    rw [write_equations_pin_name_value]
    rw [if_neg (by omega), if_pos rfl]
    rfl
  · intro h0 hh hl
    rw [pinOeEqLines, if_pos h0, if_neg (by simp [hh, hl])]
    rw [write_equations_pin_name_value, if_pos rfl]
    rfl
  · intro l1 l2 h0 h1 h2 hl1 hl2
    rw [pinOeEqLines, if_neg h0]
    rw [h1, h2]
    rw [if_neg (by simp)]
    have hlen1 : 0 < l1.length := List.length_pos.mpr hl1
    have hlen2 : 0 < l2.length := List.length_pos.mpr hl2
    by_cases hle : l1.length ≤ l2.length
    · rw [if_pos (Or.inr ⟨rfl, Or.inr (by rw [prodLen, prodLen]; exact hle)⟩)]
      rw [List.length_append, write_pin_equations_products_length]
      simp only [List.length_singleton]
      omega
    · rw [if_neg]
      · rw [List.length_append, write_pin_equations_products_length]
        simp only [List.length_singleton]
        omega
      · rintro (h | ⟨_, (h | h)⟩)
        · exact Polarity.noConfusion h
        · rw [isBoolResult] at h
          exact Bool.noConfusion h
        · rw [prodLen, prodLen] at h
          exact hle h

/-- Witness for C8: a fixed-high pin with no OE dependencies gets `.oe = 'b'1;`. -/
theorem claim_C8_witness :
    (⟨"O", ⟨0, [], []⟩, ⟨0, [], []⟩, false, true, [], [], [], [], []⟩ :
        PinData).oe_depends.bitmap = 0 ∧
      ((⟨"O", ⟨0, [], []⟩, ⟨0, [], []⟩, false, true, [], [], [], [], []⟩ :
          PinData).seenhigh = true ∨
        (⟨"O", ⟨0, [], []⟩, ⟨0, [], []⟩, false, true, [], [], [], [], []⟩ :
          PinData).seenlow = true) ∧
      pinOeEqLines (fun _ _ _ => SimpResult.const true) Polarity.auto
          ⟨"O", ⟨0, [], []⟩, ⟨0, [], []⟩, false, true, [], [], [], [], []⟩ =
        ["O" ++ ".oe" ++ " = \x27b\x271;", ""] :=
  ⟨rfl, Or.inl rfl,
    (claim_C8 (fun _ _ _ => SimpResult.const true)
        ⟨"O", ⟨0, [], []⟩, ⟨0, [], []⟩, false, true, [], [], [], [], []⟩).1 rfl (Or.inl rfl)⟩

/-- C7 counterexample: the same profile, image, polarity flags and minimizer,
run on two different system dates, produce different equations files (the
`Date` header line embeds `datetime.now()`). -/
theorem claim_C7_counterexample :
    repal_run ⟨0, 8, 0, [], [], [], 0, "PALX"⟩ (fun _ => 0) Polarity.auto Polarity.auto
        (fun _ _ _ => SimpResult.const true) "dump" "01/01/25" ≠
      repal_run ⟨0, 8, 0, [], [], [], 0, "PALX"⟩ (fun _ => 0) Polarity.auto Polarity.auto
        (fun _ _ _ => SimpResult.const true) "dump" "01/02/25" := by
  decide

/-- C7 (amended): for a fixed profile, image, polarity flags and minimizer the
run is a pure function of its inputs and the system date, the date influences
only the `Date` header line (line index 4), and two runs on the same date
produce byte-identical equations files. -/
theorem claim_C7 (dev : Device) (img : Image) (pol oepol : Polarity) (simplify : Simplifier)
    (stem d1 d2 : String) :
    (repal_run dev img pol oepol simplify stem d1).map (fun ls => ls.eraseIdx 4) =
      (repal_run dev img pol oepol simplify stem d2).map (fun ls => ls.eraseIdx 4) ∧
    (d1 = d2 → repal_run dev img pol oepol simplify stem d1 =
      repal_run dev img pol oepol simplify stem d2) := by
  refine ⟨?_, fun h => by rw [h]⟩
  rw [repal_run, repal_run]
  cases hm : (((build_outputpins_configuration dev).zip
      ((build_outputpins_configuration dev).map fun op =>
        depScanPin dev.eprom_address_width img (build_inputpins_configuration dev) op)).mapM
      fun x => buildPinTerms dev.eprom_address_width dev.eprom_hiz_probe_pins
        dev.eprom_data_width img x.1 x.2) with
  | none => rfl
  | some pins => rfl

/-- Witness for C7 at a concrete trivial device and equal dates. -/
theorem claim_C7_witness :
    ((repal_run ⟨0, 8, 0, [], [], [], 0, "PALX"⟩ (fun _ => 0) Polarity.auto Polarity.auto
          (fun _ _ _ => SimpResult.const true) "dump" "01/01/25").map
        (fun ls => ls.eraseIdx 4) =
      (repal_run ⟨0, 8, 0, [], [], [], 0, "PALX"⟩ (fun _ => 0) Polarity.auto Polarity.auto
          (fun _ _ _ => SimpResult.const true) "dump" "01/02/25").map
        (fun ls => ls.eraseIdx 4)) ∧
      ("01/01/25" = "01/01/25" →
        repal_run ⟨0, 8, 0, [], [], [], 0, "PALX"⟩ (fun _ => 0) Polarity.auto Polarity.auto
            (fun _ _ _ => SimpResult.const true) "dump" "01/01/25" =
          repal_run ⟨0, 8, 0, [], [], [], 0, "PALX"⟩ (fun _ => 0) Polarity.auto Polarity.auto
            (fun _ _ _ => SimpResult.const true) "dump" "01/01/25") :=
  ⟨(claim_C7 ⟨0, 8, 0, [], [], [], 0, "PALX"⟩ (fun _ => 0) Polarity.auto Polarity.auto
      (fun _ _ _ => SimpResult.const true) "dump" "01/01/25" "01/02/25").1,
    (claim_C7 ⟨0, 8, 0, [], [], [], 0, "PALX"⟩ (fun _ => 0) Polarity.auto Polarity.auto
      (fun _ _ _ => SimpResult.const true) "dump" "01/01/25" "01/01/25").2⟩
